import Mathlib

/-!
Verification development for the graph-analysis servers of this repository
(part8 `server_lf.cpp`, part9 `server_pipeline.cpp`, and the shared
`Graph.hpp` / `AlgorithmFactory.cpp`).

The C++ sources are shallowly embedded:
  * `std::istringstream` extraction is modelled by `IStream` (remaining
    characters plus the fail bit); numeric extraction follows the C++11
    rule that a failed extraction writes 0.  Sign and overflow handling of
    `std::num_get` are omitted: every numeric token of the modelled
    grammar is a plain digit string.
  * C++ exceptions are modelled by the `Outcome` type: a function that can
    throw returns `.exn e` when an exception escapes it.
  * `std::mt19937` + `uniform_int_distribution` inside `make_random_graph`
    are modelled by an explicit proposal stream `Nat → Nat × Nat`, the
    sequence of `(u, v)` endpoint picks.  In C++ this stream is a pure
    function of the seed.  Loops whose iteration count depends on the
    stream carry explicit fuel; exhausting the fuel yields `.diverge`
    (the C++ loop would still be running).
  * Threads are modelled by their per-iteration handlers (one message
    in, messages/replies out), and the Leader/Followers worker loop by a
    labelled transition system.
-/

/-- The C++ exceptions that the modelled code can throw. -/
inductive CppExn where
  | invalid_argument (what : String)
  | out_of_range (what : String)
deriving DecidableEq, Repr

/-- `isspace` in the C locale. -/
def cppIsSpace (c : Char) : Bool :=
  c == ' ' || c == '\t' || c == '\n' || c == '\x0b' || c == '\x0c' || c == '\r'

/-- `std::tolower` on ASCII. -/
def cppToLower (c : Char) : Char :=
  if 'A' ≤ c && c ≤ 'Z' then Char.ofNat (c.toNat + 32) else c

/-- `lower` of `server_pipeline.cpp` / `server_lf.cpp`: lowercase each byte. -/
def lower (s : String) : String := String.mk (s.data.map cppToLower)

/-- A decimal digit. -/
def isDigitChar (c : Char) : Bool := '0' ≤ c && c ≤ '9'

/-- Value of a digit string (most significant first). -/
def digitsToNat (ds : List Char) : Nat :=
  ds.foldl (fun n c => n * 10 + (c.toNat - 48)) 0

/-- An input string stream: the characters not yet consumed and the fail
bit.  `eofbit` needs no separate modelling: reading at the end sets the
fail bit here exactly when the C++ extraction would fail. -/
structure IStream where
  chars : List Char
  failbit : Bool
deriving DecidableEq, Repr

/-- Skip leading whitespace, as every formatted extraction does. -/
def skipWs (cs : List Char) : List Char := cs.dropWhile cppIsSpace

/-- `iss >> tok` for `std::string`: skip whitespace, read up to the next
whitespace; fail (leaving the target empty, as our call sites initialise
it) when nothing remains. -/
def readToken (s : IStream) : String × IStream :=
  if s.failbit then ("", s)
  else
    let cs := skipWs s.chars
    let tk := cs.takeWhile (fun c => !cppIsSpace c)
    if tk.isEmpty then ("", ⟨cs, true⟩)
    else (String.mk tk, ⟨cs.dropWhile (fun c => !cppIsSpace c), false⟩)

/-- `iss >> v` for an unsigned integer: skip whitespace, read digits; on
failure write 0 (C++11) and set the fail bit. -/
def readUInt (s : IStream) : Nat × IStream :=
  if s.failbit then (0, s)
  else
    let cs := skipWs s.chars
    let ds := cs.takeWhile isDigitChar
    if ds.isEmpty then (0, ⟨cs, true⟩)
    else (digitsToNat ds, ⟨cs.dropWhile isDigitChar, false⟩)

/-- `iss >> c` for `char`: skip whitespace, read one character; on failure
the target keeps its initial value, 0 at our call sites. -/
def readChar (s : IStream) : Char × IStream :=
  if s.failbit then (Char.ofNat 0, s)
  else
    match skipWs s.chars with
    | [] => (Char.ofNat 0, ⟨[], true⟩)
    | c :: rest => (c, ⟨rest, false⟩)

/-- The `while (iss >> tok)` collection loop.  Each successful extraction
consumes at least the token's characters, so `chars.length + 1` rounds
suffice. -/
def readTokensGo : Nat → IStream → List String
  | 0, _ => []
  | fuel + 1, s =>
    let (tok, s') := readToken s
    if s'.failbit then [] else tok :: readTokensGo fuel s'

/-- All remaining whitespace-separated tokens of the stream. -/
def readTokens (s : IStream) : List String := readTokensGo (s.chars.length + 1) s

/-- `std::stoi`: skip whitespace, optional sign, then digits;
`std::invalid_argument` when no digits follow, `std::out_of_range` past
`int` range. -/
def stoi (s : String) : Except CppExn Int :=
  let cs := skipWs s.data
  let (sgn, cs') : Int × List Char :=
    match cs with
    | '-' :: r => (-1, r)
    | '+' :: r => (1, r)
    | _ => (1, cs)
  let ds := cs'.takeWhile isDigitChar
  if ds.isEmpty then .error (.invalid_argument "stoi")
  else
    let v : Int := sgn * (digitsToNat ds : Int)
    if v < -2147483648 || 2147483647 < v then .error (.out_of_range "stoi")
    else .ok v

/-- The result of running a piece of the C++ code. -/
inductive Outcome (α : Type) where
  | exn (e : CppExn)    -- a C++ exception escaped
  | diverge             -- out of fuel: the C++ loop would still be running
  | fail (err : String) -- the function returned false with this error text
  | ok (v : α)
deriving DecidableEq, Repr

/-! ## The Graph collaborator (`include/graph/Graph.hpp`, `src/graph/Graph.cpp`) -/

/-- `Graph::Kind`. -/
inductive GraphKind where
  | Undirected
  | Directed
deriving DecidableEq, Repr

/-- `Graph::Options`. -/
structure GraphOptions where
  allowSelfLoops : Bool := false
  allowMultiEdges : Bool := false
deriving DecidableEq, Repr

/-- The `Graph` class: kind, options, adjacency lists of `(neighbor,
weight)` pairs, and the logical edge counter. -/
structure Graph where
  m_kind : GraphKind
  m_opts : GraphOptions
  m_adj : List (List (Nat × Int))
  m_edgesLogical : Nat
deriving DecidableEq, Repr

/-- The constructor `Graph(n, kind, opts)`. -/
def Graph.make (n : Nat) (kind : GraphKind) (opts : GraphOptions) : Graph :=
  ⟨kind, opts, List.replicate n [], 0⟩

/-- `Graph::n()`. -/
def Graph.n (g : Graph) : Nat := g.m_adj.length

/-- `Graph::m()`. -/
def Graph.m (g : Graph) : Nat := g.m_edgesLogical

/-- `Graph::directed()`. -/
def Graph.directed (g : Graph) : Bool := g.m_kind == .Directed

/-- `Graph::adj(u)`.  `checkIndex` would throw for `u ≥ n()`; every
modelled call site passes `u < n()`, so the out-of-range default is never
reached. -/
def Graph.adj (g : Graph) (u : Nat) : List (Nat × Int) := g.m_adj.getD u []

/-- `Graph::hasArc(u, v)`. -/
def Graph.hasArc (g : Graph) (u v : Nat) : Bool := (g.adj u).any (fun e => e.1 == v)

/-- `Graph::addEdge(u, v, w)`: index checks, the self-loop guard, the
multi-edge guard (silently keeping the graph unchanged), then appending to
the adjacency of `u` (and of `v` when undirected) and bumping the logical
edge count. -/
def Graph.addEdge (g : Graph) (u v : Nat) (w : Int) : Except CppExn Graph :=
  if g.n ≤ u || g.n ≤ v then .error (.out_of_range "vertex index out of range")
  else if !g.m_opts.allowSelfLoops && u == v then
    .error (.invalid_argument "self-loops are disabled in this graph")
  else if !g.m_opts.allowMultiEdges && (g.hasArc u v || (!g.directed && g.hasArc v u)) then
    .ok g
  else
    let adj1 := g.m_adj.set u (g.m_adj.getD u [] ++ [(v, w)])
    let adj2 := if g.directed then adj1 else adj1.set v (adj1.getD v [] ++ [(u, w)])
    .ok ⟨g.m_kind, g.m_opts, adj2, g.m_edgesLogical + 1⟩

/-- `Graph::reversed()` (`Graph.cpp`): directed arcs flipped, undirected
adjacency copied as-is. -/
def Graph.reversed (g : Graph) : Graph :=
  if g.directed then
    let adj0 : List (List (Nat × Int)) := List.replicate g.n []
    let adj' := (List.range g.n).foldl
      (fun acc u => (g.adj u).foldl
        (fun acc2 e => acc2.set e.1 (acc2.getD e.1 [] ++ [(u, e.2)])) acc) adj0
    ⟨g.m_kind, g.m_opts, adj', g.m_edgesLogical⟩
  else ⟨g.m_kind, g.m_opts, g.m_adj, g.m_edgesLogical⟩

/-- `Graph::label()` (`Graph.cpp`). -/
def Graph.label (g : Graph) : String :=
  (if g.directed then "Directed" else "Undirected")
    ++ "Graph(" ++ toString g.n ++ "V," ++ toString g.m ++ "E)"

/-! ## Graph builders (`server_pipeline.cpp` lines 164–255; the part-8
copies in `server_lf.cpp` lines 74–178 are textually identical up to one
error message). -/

/-- The `while (!g_stop.load() && added < E)` loop of `make_random_graph`.
`stream k` is the k-th `(u, v)` proposal of the seeded generator; the stop
flag is taken to stay `false` ("absent a stop signal").  One unit of fuel
per iteration. -/
def make_random_graph_go (E : Nat) (directed : Bool) (stream : Nat → Nat × Nat) :
    Nat → Nat → Graph → List (Nat × Nat) → Nat → Outcome Graph
  | 0, _, g, _, added => if added < E then .diverge else .ok g
  | fuel' + 1, k, g, seen, added =>
    if added < E then
      let u := (stream k).1
      let v := (stream k).2
      if u == v then make_random_graph_go E directed stream fuel' (k + 1) g seen added
      else
        let key := if directed then (u, v) else (min u v, max u v)
        if seen.contains key then
          make_random_graph_go E directed stream fuel' (k + 1) g seen added
        else
          match g.addEdge u v 1 with
          | .error e => .exn e
          | .ok g' =>
            make_random_graph_go E directed stream fuel' (k + 1) g' (key :: seen) (added + 1)
    else .ok g

/-- `make_random_graph(V, E, seed, directed)`; the seeded generator enters
as its proposal stream. -/
def make_random_graph (V E : Nat) (stream : Nat → Nat × Nat) (directed : Bool)
    (fuel : Nat) : Outcome Graph :=
  let opt : GraphOptions := { allowSelfLoops := false, allowMultiEdges := false }
  let g := Graph.make V (if directed then .Directed else .Undirected) opt
  make_random_graph_go E directed stream fuel 0 g [] 0

/-- The edge-token loop of `parse_manual_all`: find `'-'`, `std::stoi` both
substrings (exceptions escape), validate endpoints, reject duplicates via
the `seen` set, and `addEdge`. -/
def parse_manual_all_go (V : Nat) : List String → Graph → List (Nat × Nat) → Outcome Graph
  | [], g, _ => .ok g
  | t :: rest, g, seen =>
    match t.data.findIdx? (fun c => c == '-') with
    | none => .fail ("Bad token: " ++ t)
    | some dash =>
      match stoi (String.mk (t.data.take dash)) with
      | .error e => .exn e
      | .ok u =>
        match stoi (String.mk (t.data.drop (dash + 1))) with
        | .error e => .exn e
        | .ok v =>
          if u < 0 || v < 0 || (V : Int) ≤ u || (V : Int) ≤ v || u == v then
            .fail ("Invalid endpoints: " ++ t)
          else
            let un := u.toNat
            let vn := v.toNat
            if g.directed then
              if seen.contains (un, vn) then .fail ("Duplicate arc: " ++ t)
              else
                match g.addEdge un vn 1 with
                | .error e => .exn e
                | .ok g' => parse_manual_all_go V rest g' ((un, vn) :: seen)
            else
              let mm := (min un vn, max un vn)
              if seen.contains mm then .fail ("Duplicate edge: " ++ t)
              else
                match g.addEdge un vn 1 with
                | .error e => .exn e
                | .ok g' => parse_manual_all_go V rest g' (mm :: seen)

/-- `parse_manual_all` (`server_pipeline.cpp` lines 193–230):
`ALG ALL MANUAL <V> : u-v u-v ... [--directed]`. -/
def parse_manual_all (line : String) : Outcome Graph :=
  let s0 : IStream := ⟨line.data, false⟩
  let (kw1, s1) := readToken s0
  let (kw2, s2) := readToken s1
  let (mode, s3) := readToken s2
  if !(lower kw1 == "alg" && lower kw2 == "all" && lower mode == "manual") then
    .fail "Expected: ALG ALL MANUAL <V> : u-v u-v ... [--directed]"
  else
    let (V, s4) := readUInt s3
    let (colon, s5) := readChar s4
    if V == 0 || !(colon == ':') then
      .fail "Format: ALG ALL MANUAL <V> : u-v ... [--directed]"
    else
      let toks := readTokens s5
      let directed := !toks.isEmpty && toks.getLast! == "--directed"
      let toks2 := if directed then toks.dropLast else toks
      let opt : GraphOptions := { allowSelfLoops := false, allowMultiEdges := false }
      let g0 := Graph.make V (if directed then .Directed else .Undirected) opt
      parse_manual_all_go V toks2 g0 []

/-- `build_graph_from_command` (`server_pipeline.cpp` lines 232–255). -/
def build_graph_from_command (line : String) (stream : Nat → Nat × Nat) (fuel : Nat) :
    Outcome Graph :=
  let s0 : IStream := ⟨line.data, false⟩
  let (kw1, s1) := readToken s0
  let (kw2, s2) := readToken s1
  let (mode, s3) := readToken s2
  if !(lower kw1 == "alg" && lower kw2 == "all") then
    .fail ("Unknown. Use:\n  ALG ALL RANDOM <V> <E> <SEED> [--directed]\n  ALG ALL MANUAL <V> : u-v u-v ... [--directed]\n")
  else if lower mode == "random" then
    let (V, s4) := readUInt s3
    let (_E, s5) := readUInt s4
    let (_seed, s6) := readUInt s5
    let (flag, _s7) := readToken s6
    if V == 0 then .fail "V must be > 0"
    else make_random_graph V _E stream (flag == "--directed") fuel
  else if lower mode == "manual" then parse_manual_all line
  else .fail "Bad mode. Use RANDOM or MANUAL."

/-! ## The four algorithm strategies (`src/algo/AlgorithmFactory.cpp`) -/

/-- The local `Edge` record of `AlgoMstWeight`: `(weight, u, v)`. -/
structure KEdge where
  w : Int
  u : Nat
  v : Nat
deriving DecidableEq, Repr

/-- The edge-collection loop of `AlgoMstWeight::run`: one record per
adjacency entry with `u < v`. -/
def mstCollectEdges (g : Graph) : List KEdge :=
  (List.range g.n).flatMap
    (fun u => (g.adj u).filterMap
      (fun e => if u < e.1 then some ⟨e.2, u, e.1⟩ else none))

/-- Insertion step of the weight sort (a stable realisation of
`std::sort` with comparator `a.w < b.w`). -/
def insertByW (x : KEdge) : List KEdge → List KEdge
  | [] => [x]
  | y :: ys => if x.w < y.w then x :: y :: ys else y :: insertByW x ys

/-- Sort the edge list by non-decreasing weight. -/
def sortByW (l : List KEdge) : List KEdge := l.foldr insertByW []

/-- The path-compressed `find` of the disjoint-set union; the parent
chain of a forest over `n` nodes has length below `n`, so fuel `n`
suffices and the fuel-out branch is never taken at the modelled call
sites. -/
def dsuFind : Nat → List Nat → Nat → Nat × List Nat
  | 0, parent, x => (x, parent)
  | fuel + 1, parent, x =>
    let px := parent.getD x x
    if px == x then (x, parent)
    else
      let (r, parent') := dsuFind fuel parent px
      (r, parent'.set x r)

/-- `unite` of `AlgoMstWeight::run`: find both roots, union by rank;
returns whether a merge happened. -/
def dsuUnite (fuel : Nat) (parent rnk : List Nat) (a b : Nat) :
    Bool × List Nat × List Nat :=
  let (ra, p1) := dsuFind fuel parent a
  let (rb, p2) := dsuFind fuel p1 b
  if ra == rb then (false, p2, rnk)
  else
    let (ra2, rb2) := if rnk.getD ra 0 < rnk.getD rb 0 then (rb, ra) else (ra, rb)
    let p3 := p2.set rb2 ra2
    let rnk' := if rnk.getD ra2 0 == rnk.getD rb2 0 then rnk.set ra2 (rnk.getD ra2 0 + 1) else rnk
    (true, p3, rnk')

/-- The Kruskal accumulation loop with its early exit at `n - 1` used
edges. -/
def kruskalGo (n : Nat) : List KEdge → List Nat → List Nat → Int → Nat → Int × Nat
  | [], _, _, total, used => (total, used)
  | ed :: rest, parent, rnk, total, used =>
    let (merged, parent', rnk') := dsuUnite n parent rnk ed.u ed.v
    if merged then
      let total' := total + ed.w
      let used' := used + 1
      if used' == n - 1 then (total', used')
      else kruskalGo n rest parent' rnk' total' used'
    else kruskalGo n rest parent' rnk' total used

/-- `AlgoMstWeight::run`. -/
def AlgoMstWeight_run (g : Graph) : String :=
  if g.directed then "MST undefined for directed graphs."
  else
    let n := g.n
    if n == 0 then "MST weight: 0 (empty graph)."
    else
      let edges := sortByW (mstCollectEdges g)
      let (total, used) := kruskalGo n edges (List.range n) (List.replicate n 0) 0 0
      if !(used == n - 1) then "Graph is disconnected; MST does not exist."
      else "MST weight: " ++ toString total ++ " (edges used: " ++ toString used ++ ")."

/-- First-pass DFS of `AlgoSccCount::run` (on `g`): mark, recurse into
unseen neighbors, then append `u` to the finish order.  Fuel bounds the
recursion depth, which the visited marks keep at most `n`. -/
def sccDfs1 (g : Graph) : Nat → List Bool × List Nat → Nat → List Bool × List Nat
  | 0, acc, _ => acc
  | fuel + 1, acc, u =>
    let seen1 := acc.1.set u true
    let acc2 := (g.adj u).foldl
      (fun a e => if a.1.getD e.1 false then a else sccDfs1 g fuel a e.1)
      (seen1, acc.2)
    (acc2.1, acc2.2 ++ [u])

/-- Second-pass DFS (on the reversed graph): marking only. -/
def sccDfs2 (gr : Graph) : Nat → List Bool → Nat → List Bool
  | 0, seen, _ => seen
  | fuel + 1, seen, u =>
    (gr.adj u).foldl
      (fun sn e => if sn.getD e.1 false then sn else sccDfs2 gr fuel sn e.1)
      (seen.set u true)

/-- `AlgoSccCount::run` (Kosaraju). -/
def AlgoSccCount_run (g : Graph) : String :=
  let n := g.n
  if n == 0 then "SCC count: 0 (empty graph)."
  else
    let first := (List.range n).foldl
      (fun acc u => if acc.1.getD u false then acc else sccDfs1 g (n + 1) acc u)
      (List.replicate n false, ([] : List Nat))
    let order := first.2
    let gr := g.reversed
    let final := (List.range n).foldl
      (fun (acc : List Bool × Nat) i =>
        let u := order.getD (n - 1 - i) 0
        if acc.1.getD u false then acc
        else (sccDfs2 gr (n + 1) acc.1 u, acc.2 + 1))
      (List.replicate n false, 0)
    "SCC count: " ++ toString final.2 ++ "."

/-- Entry `(i, j)` of the capacity matrix. -/
def get2 (m : List (List Int)) (i j : Nat) : Int := (m.getD i []).getD j 0

/-- Write entry `(i, j)` of the capacity matrix. -/
def set2 (m : List (List Int)) (i j : Nat) (v : Int) : List (List Int) :=
  m.set i ((m.getD i []).set j v)

/-- The neighbor scan of the BFS in `AlgoMaxFlow::run`, with its early
break once the sink is labelled. -/
def mfScan (t : Nat) (cap : List (List Int)) (u : Nat) :
    List Nat → List Int → List Nat → List Int × List Nat
  | [], parent, acc => (parent, acc)
  | v :: rest, parent, acc =>
    if parent.getD v (-1) == -1 && decide (0 < get2 cap u v) then
      let parent' := parent.set v (Int.ofNat u)
      let acc' := acc ++ [v]
      if v == t then (parent', acc') else mfScan t cap u rest parent' acc'
    else mfScan t cap u rest parent acc

/-- The BFS loop `while (!q.empty() && parent[t] == -1)`; every vertex is
enqueued at most once, so fuel `n + 1` covers all pops. -/
def mfBfs (n t : Nat) (cap : List (List Int)) : Nat → List Nat → List Int → List Int
  | 0, _, parent => parent
  | fuel + 1, q, parent =>
    match q with
    | [] => parent
    | u :: qrest =>
      if !(parent.getD t (-1) == -1) then parent
      else
        let (parent', newq) := mfScan t cap u (List.range n) parent []
        mfBfs n t cap fuel (qrest ++ newq) parent'

/-- Walk the BFS parents from sink to source taking the minimum residual
capacity; the path visits each vertex at most once, fuel `n` suffices. -/
def mfBottleneck (cap : List (List Int)) (parent : List Int) (s : Nat) :
    Nat → Nat → Int → Int
  | 0, _, add => add
  | fuel + 1, v, add =>
    if v == s then add
    else
      let u := (parent.getD v (-1)).toNat
      mfBottleneck cap parent s fuel u (min add (get2 cap u v))

/-- Walk the path again updating the residual capacities. -/
def mfAugment (parent : List Int) (s : Nat) (add : Int) :
    Nat → Nat → List (List Int) → List (List Int)
  | 0, _, cap => cap
  | fuel + 1, v, cap =>
    if v == s then cap
    else
      let u := (parent.getD v (-1)).toNat
      let cap1 := set2 cap u v (get2 cap u v - add)
      let cap2 := set2 cap1 v u (get2 cap1 v u + add)
      mfAugment parent s add fuel u cap2

/-- Sum of the positive capacities, bounding the number of augmenting
rounds (each round adds at least 1 to the flow). -/
def capSum (cap : List (List Int)) : Nat :=
  (cap.map (fun row => (row.map Int.toNat).sum)).sum

/-- The `while (true)` augmenting loop of `AlgoMaxFlow::run`. -/
def mfLoop (n s t : Nat) : Nat → List (List Int) → Int → Int
  | 0, _, flow => flow
  | fuel + 1, cap, flow =>
    let parent0 := (List.replicate n (-1 : Int)).set s (Int.ofNat s)
    let parent := mfBfs n t cap (n + 1) [s] parent0
    if parent.getD t (-1) == -1 then flow
    else
      let add := mfBottleneck cap parent s n t 9223372036854775807
      let cap' := mfAugment parent s add n t cap
      mfLoop n s t fuel cap' (flow + add)

/-- `AlgoMaxFlow::run` (Edmonds–Karp from 0 to n-1).  An adjacency entry
with weight 0 counts as capacity 1, and undirected edges appear in both
adjacency lists, so no mirroring is added here — exactly as the source
comments dictate. -/
def AlgoMaxFlow_run (g : Graph) : String :=
  let n := g.n
  if n < 2 then "Max flow: 0 (need at least two vertices)."
  else
    let cap0 : List (List Int) := List.replicate n (List.replicate n 0)
    let cap := (List.range n).foldl
      (fun acc u => (g.adj u).foldl
        (fun acc2 e =>
          let w : Int := if e.2 != 0 then e.2 else 1
          set2 acc2 u e.1 (get2 acc2 u e.1 + w)) acc) cap0
    let flow := mfLoop n 0 (n - 1) (capSum cap + 1) cap 0
    "Max flow (0 -> " ++ toString (n - 1) ++ "): " ++ toString flow ++ "."

/-- Entry `(i, j)` of the Hamilton adjacency matrix. -/
def getA (A : List (List Bool)) (i j : Nat) : Bool := (A.getD i []).getD j false

/-- Write entry `(i, j)` of the Hamilton adjacency matrix. -/
def setA (A : List (List Bool)) (i j : Nat) (v : Bool) : List (List Bool) :=
  A.set i ((A.getD i []).set j v)

/-- The backtracking DFS of `AlgoHamilton::run`.  State is passed
immutably, so the source's undo of `path`/`used` is implicit; the `found`
early exit is the `some` short-circuit of the fold.  Fuel bounds the
recursion depth (at most one level per placed vertex). -/
def hamDfs (n start : Nat) (A : List (List Bool)) :
    Nat → List Nat → List Bool → Nat → Option (List Nat)
  | 0, _, _, _ => none
  | fuel + 1, path, used, u =>
    if path.length == n then
      if getA A u start then some (path ++ [start]) else none
    else
      (List.range n).foldl
        (fun found v =>
          match found with
          | some p => some p
          | none =>
            if !used.getD v false && getA A u v then
              hamDfs n start A fuel (path ++ [v]) (used.set v true) v
            else none)
        none

/-- `AlgoHamilton::run`. -/
def AlgoHamilton_run (g : Graph) : String :=
  let n := g.n
  if n == 0 then "Hamiltonian circuit: trivial (empty)."
  else if n == 1 then "Hamiltonian circuit: 0 -> 0"
  else
    let A0 : List (List Bool) := List.replicate n (List.replicate n false)
    let A := (List.range n).foldl
      (fun acc u => (g.adj u).foldl
        (fun acc2 e =>
          let acc3 := setA acc2 u e.1 true
          if !g.directed then setA acc3 e.1 u true else acc3) acc) A0
    match hamDfs n 0 A (n + 2) [0] ((List.replicate n false).set 0 true) 0 with
    | none => "No Hamiltonian circuit."
    | some path => "Hamiltonian circuit: " ++ String.intercalate " -> " (path.map toString)

/-- `AlgorithmFactory::create`. -/
def AlgorithmFactory_create (name : String) : Option (Graph → String) :=
  let nm := lower name
  if nm == "mst" then some AlgoMstWeight_run
  else if nm == "scc" then some AlgoSccCount_run
  else if nm == "maxflow" then some AlgoMaxFlow_run
  else if nm == "hamilton" then some AlgoHamilton_run
  else none

/-! ## Pipeline job types and stage handlers (`server_pipeline.cpp`) -/

/-- `ClientMsg`: acceptor → parser. -/
structure ClientMsg where
  client_fd : Int
  line : String
  id : Nat
deriving DecidableEq, Repr

/-- `GraphJob`: parser → dispatcher. -/
structure GraphJob where
  client_fd : Int
  g : Graph
  label : String
  id : Nat
deriving DecidableEq, Repr

/-- `AlgoTask`: dispatcher → one algorithm worker. -/
structure AlgoTask where
  client_fd : Int
  g : Graph
  algoName : String
  label : String
  id : Nat
deriving DecidableEq, Repr

/-- `AlgoResult`: algorithm workers (and the dispatcher's `BEGIN`
sentinel) → aggregator. -/
structure AlgoResult where
  client_fd : Int
  algoName : String
  text : String
  label : String
  id : Nat
deriving DecidableEq, Repr

/-- `Response`: aggregator → sender.  The source fills the id field with
0 ("unused in sender"). -/
structure Response where
  client_fd : Int
  payload : String
  id : Nat
deriving DecidableEq, Repr

/-- What one iteration of `ParserStage::run` does with a message. -/
inductive ParserAction where
  | reply (text : String)   -- error text sent to the client, connection closed
  | forward (gj : GraphJob) -- GraphJob pushed to the dispatcher
deriving DecidableEq, Repr

/-- One iteration of `ParserStage::run` (lines 268–283).  The loop has no
try/catch, so an exception thrown below `build_graph_from_command` escapes
as `.exn`. -/
def parserHandle (stream : Nat → Nat × Nat) (fuel : Nat) (msg : ClientMsg) :
    Outcome ParserAction :=
  match build_graph_from_command msg.line stream fuel with
  | .exn e => .exn e
  | .diverge => .diverge
  | .fail err => .ok (.reply ("Error: " ++ err ++ "\n"))
  | .ok g => .ok (.forward ⟨msg.client_fd, g, g.label, msg.id⟩)

/-- The error-reply text a parser iteration sends, if any. -/
def parserReplyText (o : Outcome ParserAction) : Option String :=
  match o with
  | .ok (.reply t) => some t
  | _ => none

/-- The GraphJob a parser iteration forwards, if any. -/
def parserForwarded (o : Outcome ParserAction) : List GraphJob :=
  match o with
  | .ok (.forward gj) => [gj]
  | _ => []

/-- One iteration of `DispatcherStage::run`: the `BEGIN` sentinel for the
aggregator plus one `AlgoTask` per algorithm queue. -/
def dispatchHandle (gj : GraphJob) : AlgoResult × List AlgoTask :=
  (⟨gj.client_fd, "BEGIN", "", gj.label, gj.id⟩,
   [⟨gj.client_fd, gj.g, "MST", gj.label, gj.id⟩,
    ⟨gj.client_fd, gj.g, "SCC", gj.label, gj.id⟩,
    ⟨gj.client_fd, gj.g, "MAXFLOW", gj.label, gj.id⟩,
    ⟨gj.client_fd, gj.g, "HAMILTON", gj.label, gj.id⟩])

/-- One iteration of `AlgoWorker::run`. -/
def algoWorkerHandle (t : AlgoTask) : AlgoResult :=
  let text :=
    match AlgorithmFactory_create t.algoName with
    | some run => run t.g
    | none => "(unavailable)"
  ⟨t.client_fd, t.algoName, text, t.label, t.id⟩

/-- The aggregator-bound messages a list of GraphJobs generates: for each
job the `BEGIN` sentinel followed by the four worker results (one
admissible arrival order; C3 below covers the others). -/
def pipelineAggMsgs (jobs : List GraphJob) : List AlgoResult :=
  jobs.flatMap (fun gj =>
    (dispatchHandle gj).1 :: (dispatchHandle gj).2.map algoWorkerHandle)

/-! ## The aggregator (`AggregatorStage`, lines 354–402) -/

/-- `std::map<std::string, std::string>` as an association list with
distinct keys (`mapSet` preserves distinctness; every map in a run starts
empty). -/
def mapSet (m : List (String × String)) (k v : String) : List (String × String) :=
  if (m.lookup k).isSome then m.map (fun p => if p.1 == k then (p.1, v) else p)
  else m ++ [(k, v)]

/-- `got[name]` on the read side: a missing key default-constructs the
empty string. -/
def mapGet (m : List (String × String)) (k : String) : String := (m.lookup k).getD ""

/-- `AggregatorStage::State`. -/
structure AggState where
  client_fd : Int := -1
  label : String := ""
  got : List (String × String) := []
deriving DecidableEq, Repr

/-- The aggregator's `reqs_` map. -/
abbrev AggMap := Nat → Option AggState

/-- `reqs_` with nothing in it. -/
def emptyAggMap : AggMap := fun _ => none

/-- Point update of `reqs_` (insert for `some`, `erase` for `none`). -/
def aggUpdate (m : AggMap) (i : Nat) (v : Option AggState) : AggMap :=
  fun j => if j == i then v else m j

/-- One iteration of `AggregatorStage::run`: `reqs_[r->id]`
default-constructs a `State`; a `BEGIN` sentinel records fd and label; a
named result is recorded and, once four results are recorded, the Response
is formatted (label line, then MST, SCC, MAXFLOW, HAMILTON lines) and the
state erased. -/
def aggStep (m : AggMap) (r : AlgoResult) : AggMap × Option Response :=
  let st := (m r.id).getD {}
  if r.algoName == "BEGIN" then
    (aggUpdate m r.id (some { st with client_fd := r.client_fd, label := r.label }), none)
  else
    let st' : AggState :=
      { client_fd := r.client_fd, label := r.label, got := mapSet st.got r.algoName r.text }
    if st'.got.length == 4 then
      let payload :=
        "Graph: " ++ st'.label ++ "\n"
          ++ "MST: " ++ mapGet st'.got "MST" ++ "\n"
          ++ "SCC: " ++ mapGet st'.got "SCC" ++ "\n"
          ++ "MAXFLOW: " ++ mapGet st'.got "MAXFLOW" ++ "\n"
          ++ "HAMILTON: " ++ mapGet st'.got "HAMILTON" ++ "\n"
      (aggUpdate m r.id none, some ⟨st'.client_fd, payload, 0⟩)
    else (aggUpdate m r.id (some st'), none)

/-- Run the aggregator over a list of incoming messages, collecting the
emitted responses in order. -/
def runAgg (m : AggMap) : List AlgoResult → AggMap × List Response
  | [] => (m, [])
  | r :: rest =>
    ((runAgg (aggStep m r).1 rest).1,
     (aggStep m r).2.toList ++ (runAgg (aggStep m r).1 rest).2)

/-- End-to-end for one client message: parse, dispatch, run the four
workers, aggregate.  (`[]` when the parser replies with an error or
dies.) -/
def pipelineResponses (stream : Nat → Nat × Nat) (fuel : Nat) (msg : ClientMsg) :
    List Response :=
  (runAgg emptyAggMap (pipelineAggMsgs (parserForwarded (parserHandle stream fuel msg)))).2

/-! ## The mailbox (`BlockingQueue<T>`, lines 74–110) -/

/-- The state a `BlockingQueue<T>` protects: the FIFO buffer and the
closed flag. -/
structure BlockingQueue (α : Type) where
  q : List α
  closed : Bool
deriving DecidableEq, Repr

/-- `push`: a closed mailbox silently drops the item. -/
def BlockingQueue.push (s : BlockingQueue α) (v : α) : BlockingQueue α :=
  if s.closed then s else { s with q := s.q ++ [v] }

/-- `pop`: `none` when the call blocks (open and empty); otherwise the
returned `std::optional` and the state left behind — `some (none, s)` is
the closed signal. -/
def BlockingQueue.pop (s : BlockingQueue α) : Option (Option α × BlockingQueue α) :=
  match s.q with
  | [] => if s.closed then some (none, s) else none
  | x :: rest => some (some x, { s with q := rest })

/-- `close`. -/
def BlockingQueue.close (s : BlockingQueue α) : BlockingQueue α := { s with closed := true }

/-- Push a whole list in order. -/
def BlockingQueue.pushAll (s : BlockingQueue α) (l : List α) : BlockingQueue α :=
  l.foldl BlockingQueue.push s

/-- Pop repeatedly until the queue blocks or signals closed, collecting
the delivered items. -/
def drainGo : Nat → BlockingQueue α → List α
  | 0, _ => []
  | n + 1, s =>
    match s.pop with
    | some (some x, s') => x :: drainGo n s'
    | _ => []

/-- Everything consecutive pops deliver. -/
def BlockingQueue.drain (s : BlockingQueue α) : List α := drainGo s.q.length s

/-! ## The Leader/Followers worker loop (`server_lf.cpp`, lines 238–271) -/

/-- Where a worker thread is in its loop: waiting to lead, blocked in
`accept` (holding leadership), between `accept`'s return and the handoff
block (still holding leadership; `ok` records whether accept succeeded),
processing its client, or exited. -/
inductive WorkerPC where
  | waiting
  | accepting
  | releasing (ok : Bool)
  | processing
  | exited
deriving DecidableEq, Repr

/-- The shared state of the Leader/Followers pool: each worker's position,
`g_has_leader` and `g_stop`. -/
structure LFState (n : Nat) where
  pc : Fin n → WorkerPC
  hasLeader : Bool
  stop : Bool

/-- Move one worker. -/
def setPC (s : LFState n) (i : Fin n) (p : WorkerPC) : LFState n :=
  { s with pc := Function.update s.pc i p }

/-- The atomic transitions of `worker_thread` plus the SIGINT handler.
The cv-wait/acquire and the handoff block are mutex-protected in the
source, so each is one transition; the branch on `accept`'s result reads
only thread-local data and joins the handoff transition that precedes
it. -/
inductive LFStep (n : Nat) : LFState n → LFState n → Prop where
  | exitOnStop (s : LFState n) (i : Fin n) :
      s.pc i = .waiting → s.stop = true → LFStep n s (setPC s i .exited)
  | acquire (s : LFState n) (i : Fin n) :
      s.pc i = .waiting → s.stop = false → s.hasLeader = false →
      LFStep n s { setPC s i .accepting with hasLeader := true }
  | acceptRet (s : LFState n) (i : Fin n) (ok : Bool) :
      s.pc i = .accepting → LFStep n s (setPC s i (.releasing ok))
  | handoff (s : LFState n) (i : Fin n) (ok : Bool) :
      s.pc i = .releasing ok →
      LFStep n s { setPC s i (if ok then .processing else if s.stop then .exited else .waiting)
                     with hasLeader := false }
  | finishClient (s : LFState n) (i : Fin n) :
      s.pc i = .processing → LFStep n s (setPC s i .waiting)
  | sigint (s : LFState n) : LFStep n s { s with stop := true }

/-- All workers waiting, no leader, no stop — `main` right after spawning
the pool. -/
def LFInit (n : Nat) : LFState n := ⟨fun _ => .waiting, false, false⟩

/-- States an execution can reach. -/
def LFReachable (n : Nat) : LFState n → Prop :=
  Relation.ReflTransGen (LFStep n) (LFInit n)

/-- Does this position hold the leadership token (from acquisition in the
cv block to the handoff block)? -/
def holdsToken : WorkerPC → Bool
  | .accepting => true
  | .releasing _ => true
  | _ => false

/-- How many workers hold the leadership token. -/
def tokenCount (s : LFState n) : Nat :=
  (Finset.univ.filter (fun i => holdsToken (s.pc i) = true)).card

/-- How many workers are blocked in `accept`. -/
def acceptCount (s : LFState n) : Nat :=
  (Finset.univ.filter (fun i => s.pc i = .accepting)).card

/-! ## Helper lemmas -/

/-- Pushing onto an open queue appends; the queue stays open. -/
theorem pushAll_open {α : Type} :
    ∀ (l : List α) (s : BlockingQueue α), s.closed = false →
      s.pushAll l = ⟨s.q ++ l, false⟩ := by
  intro l
  induction l with
  | nil =>
    intro s hs
    rcases s with ⟨q, c⟩
    cases hs
    simp [BlockingQueue.pushAll]
  | cons v rest ih =>
    intro s hs
    rcases s with ⟨q, c⟩
    cases hs
    have hstep : (⟨q, false⟩ : BlockingQueue α).push v = ⟨q ++ [v], false⟩ := by
      simp [BlockingQueue.push]
    calc (⟨q, false⟩ : BlockingQueue α).pushAll (v :: rest)
        = ((⟨q, false⟩ : BlockingQueue α).push v).pushAll rest := rfl
      _ = (⟨q ++ [v], false⟩ : BlockingQueue α).pushAll rest := by rw [hstep]
      _ = ⟨(q ++ [v]) ++ rest, false⟩ := ih _ rfl
      _ = ⟨q ++ (v :: rest), false⟩ := by simp

/-- Draining a closed queue delivers its whole buffer in order. -/
theorem drain_closed {α : Type} :
    ∀ (l : List α), (⟨l, true⟩ : BlockingQueue α).drain = l := by
  intro l
  have go : ∀ (l : List α), drainGo l.length (⟨l, true⟩ : BlockingQueue α) = l := by
    intro l
    induction l with
    | nil => rfl
    | cons x rest ih =>
      simp only [List.length_cons, drainGo, BlockingQueue.pop]
      exact congrArg (x :: ·) ih
  exact go l

/-- C2: the BlockingQueue mailbox contract: push on a closed queue is a
silent no-op; pop yields the closed signal exactly on a closed empty
queue and otherwise the oldest item; close is idempotent; every item
pushed strictly before close is still delivered, in FIFO order. -/
theorem C2_blocking_queue_contract :
    (∀ (α : Type) (s : BlockingQueue α) (v : α), s.closed = true → s.push v = s) ∧
    (∀ (α : Type) (s : BlockingQueue α),
        s.pop = some (none, s) ↔ (s.closed = true ∧ s.q = [])) ∧
    (∀ (α : Type) (s : BlockingQueue α) (x : α) (rest : List α),
        s.q = x :: rest → s.pop = some (some x, { s with q := rest })) ∧
    (∀ (α : Type) (s : BlockingQueue α), s.close.close = s.close) ∧
    (∀ (α : Type) (l : List α),
        ((BlockingQueue.pushAll ⟨[], false⟩ l).close).drain = l) := by
  refine ⟨?_, ?_, ?_, ?_, ?_⟩
  · intro α s v h
    simp [BlockingQueue.push, h]
  · intro α s
    rcases s with ⟨q, c⟩
    cases q with
    | nil => cases c <;> simp [BlockingQueue.pop]
    | cons x rest => simp [BlockingQueue.pop]
  · intro α s x rest h
    simp [BlockingQueue.pop, h]
  · intro α s
    rfl
  · intro α l
    rw [pushAll_open l ⟨[], false⟩ rfl]
    exact drain_closed l

/-- C2 witness: the contract evaluated on concrete queues. -/
theorem C2_blocking_queue_contract_witness :
    (⟨[1, 2], true⟩ : BlockingQueue Nat).push 7 = ⟨[1, 2], true⟩ ∧
    (⟨[], true⟩ : BlockingQueue Nat).pop = some (none, ⟨[], true⟩) ∧
    (⟨[5, 6], false⟩ : BlockingQueue Nat).pop = some (some 5, ⟨[6], false⟩) ∧
    ((BlockingQueue.pushAll ⟨[], false⟩ [1, 2, 3]).close).drain = [1, 2, 3] :=
  ⟨C2_blocking_queue_contract.1 Nat ⟨[1, 2], true⟩ 7 rfl,
   (C2_blocking_queue_contract.2.1 Nat ⟨[], true⟩).mpr ⟨rfl, rfl⟩,
   C2_blocking_queue_contract.2.2.1 Nat ⟨[5, 6], false⟩ 5 [6] rfl,
   C2_blocking_queue_contract.2.2.2.2 Nat [1, 2, 3]⟩

/-- C4: the spec demands that no malformed request can kill the
stage thread, but `parse_manual_all` calls `std::stoi` on each endpoint
substring with no try/catch anywhere in `ParserStage::run`: on
`ALG ALL MANUAL 3 : a-b` the extraction of `a` throws
`std::invalid_argument`, which escapes the stage loop. -/
theorem C4_malformed_token_uncaught_exception :
    parserHandle (fun _ => (0, 0)) 0 ⟨0, "ALG ALL MANUAL 3 : a-b", 7⟩ =
      .exn (.invalid_argument "stoi") := by
  decide

/-- The spec's first end-to-end scenario line. -/
def manual_cycle4_line : String := "ALG ALL MANUAL 4 : 0-1 1-2 2-3 3-0"

/-- Its parse/build outcome. -/
def manual_cycle4_graph : Outcome Graph := parse_manual_all manual_cycle4_line

/-- The label of a successfully built graph. -/
def outcomeLabel : Outcome Graph → Option String
  | .ok g => some g.label
  | _ => none

/-- The MST strategy's text on a successfully built graph. -/
def outcomeMst : Outcome Graph → Option String
  | .ok g => some (AlgoMstWeight_run g)
  | _ => none

/-- C6 counterexample: on the undirected 4-cycle with unit weights the
MST line reports weight 3 (a spanning tree has 3 edges of weight 1), not
the weight 4 the claim states. -/
theorem C6_counterexample_mst_weight_is_three :
    outcomeMst manual_cycle4_graph = some "MST weight: 3 (edges used: 3)." ∧
    outcomeMst manual_cycle4_graph ≠ some "MST weight: 4 (edges used: 3)." := by
  constructor
  · decide
  · decide

/-- C6 as amended: the header label is `UndirectedGraph(4V,4E)` and the
MST strategy reports weight 3 with 3 edges used. -/
theorem C6_manual_cycle4_header_and_mst :
    outcomeLabel manual_cycle4_graph = some "UndirectedGraph(4V,4E)" ∧
    outcomeMst manual_cycle4_graph = some "MST weight: 3 (edges used: 3)." := by
  exact ⟨by decide, by decide⟩

/-- The spec's duplicate-edge scenario line. -/
def dup_edge_line : String := "ALG ALL MANUAL 3 : 0-1 1-2 0-1"

/-- How many newline characters a reply holds (a single-line reply holds
exactly one, its terminator). -/
def newlineCount (s : String) : Nat := s.data.count '\n'

/-- The unknown-command error text of `build_graph_from_command`. -/
def unknown_cmd_err : String :=
  "Unknown. Use:\n  ALG ALL RANDOM <V> <E> <SEED> [--directed]\n  ALG ALL MANUAL <V> : u-v u-v ... [--directed]\n"

/-- C7 counterexample: on an unrecognized command the error reply embeds
the multi-line usage text, so the client receives four lines, not
"exactly one line of the form `Error: <message>`". -/
theorem C7_counterexample_multiline_error_reply :
    parserReplyText (parserHandle (fun _ => (0, 0)) 0 ⟨0, "HELLO", 3⟩) =
      some ("Error: " ++ unknown_cmd_err ++ "\n") ∧
    newlineCount ("Error: " ++ unknown_cmd_err ++ "\n") = 4 ∧
    ¬ newlineCount ("Error: " ++ unknown_cmd_err ++ "\n") = 1 := by
  refine ⟨by decide, by decide, by decide⟩

/-- C7 as amended: a failed parse/build makes the stage send exactly one
reply `Error: <message>` terminated by a newline (one line whenever the
message itself is newline-free — the usage text for an unrecognized
command is the exception) and forward no GraphJob; the duplicate-edge
scenario replies `Error: Duplicate edge: 0-1` (a single line) and no
Response ever reaches the aggregator for it. -/
theorem C7_parse_error_single_reply_no_job :
    (∀ (stream : Nat → Nat × Nat) (fuel : Nat) (msg : ClientMsg) (err : String),
        build_graph_from_command msg.line stream fuel = .fail err →
        parserHandle stream fuel msg = .ok (.reply ("Error: " ++ err ++ "\n")) ∧
        parserForwarded (parserHandle stream fuel msg) = []) ∧
    (∀ (stream : Nat → Nat × Nat) (fuel : Nat) (fd : Int) (i : Nat),
        parserReplyText (parserHandle stream fuel ⟨fd, dup_edge_line, i⟩) =
          some "Error: Duplicate edge: 0-1\n" ∧
        newlineCount "Error: Duplicate edge: 0-1\n" = 1 ∧
        pipelineResponses stream fuel ⟨fd, dup_edge_line, i⟩ = []) := by
  constructor
  · intro stream fuel msg err h
    constructor
    · simp [parserHandle, h]
    · simp [parserHandle, h, parserForwarded]
  · intro stream fuel fd i
    have h : build_graph_from_command dup_edge_line stream fuel =
        .fail "Duplicate edge: 0-1" := rfl
    have hp : parserHandle stream fuel ⟨fd, dup_edge_line, i⟩ =
        .ok (.reply "Error: Duplicate edge: 0-1\n") := by
      simp [parserHandle, h]
    refine ⟨?_, by decide, ?_⟩
    · rw [hp]
      rfl
    · unfold pipelineResponses
      rw [hp]
      rfl

/-- C7 witness: the general part applied at the duplicate-edge input. -/
theorem C7_parse_error_single_reply_no_job_witness :
    parserHandle (fun _ => (0, 0)) 0 ⟨0, dup_edge_line, 1⟩ =
      .ok (.reply ("Error: " ++ "Duplicate edge: 0-1" ++ "\n")) ∧
    parserForwarded (parserHandle (fun _ => (0, 0)) 0 ⟨0, dup_edge_line, 1⟩) = [] :=
  C7_parse_error_single_reply_no_job.1 (fun _ => (0, 0)) 0 ⟨0, dup_edge_line, 1⟩
    "Duplicate edge: 0-1" (by decide)

/-- A digit is not whitespace. -/
theorem digit_not_space {c : Char} (h : isDigitChar c = true) : cppIsSpace c = false := by
  by_cases h1 : c = ' '
  · exact absurd (h1 ▸ h) (by decide)
  by_cases h2 : c = '\t'
  · exact absurd (h2 ▸ h) (by decide)
  by_cases h3 : c = '\n'
  · exact absurd (h3 ▸ h) (by decide)
  by_cases h4 : c = '\x0b'
  · exact absurd (h4 ▸ h) (by decide)
  by_cases h5 : c = '\x0c'
  · exact absurd (h5 ▸ h) (by decide)
  by_cases h6 : c = '\r'
  · exact absurd (h6 ▸ h) (by decide)
  simp [cppIsSpace, h1, h2, h3, h4, h5, h6]

/-- Extracting an unsigned integer from a stream holding one space and a
bare digit token consumes everything and yields the token's value. -/
theorem readUInt_digit_chars {cs : List Char} (hne : cs ≠ [])
    (hdig : ∀ c ∈ cs, isDigitChar c = true) :
    readUInt ⟨' ' :: cs, false⟩ = (digitsToNat cs, ⟨[], false⟩) := by
  cases cs with
  | nil => exact absurd rfl hne
  | cons d ds =>
    have hdropsp : (' ' :: d :: ds).dropWhile cppIsSpace = d :: ds := by
      rw [List.dropWhile_cons, if_pos (by decide), List.dropWhile_cons,
        if_neg (by simp [digit_not_space (hdig d (List.mem_cons_self d ds))])]
    have htake : (d :: ds).takeWhile isDigitChar = d :: ds :=
      List.takeWhile_eq_self_iff.mpr hdig
    have hdrop : (d :: ds).dropWhile isDigitChar = [] :=
      List.dropWhile_eq_nil_iff.mpr hdig
    simp [readUInt, skipWs, hdropsp, htake, hdrop]

set_option maxHeartbeats 1000000 in
/-- C10: a RANDOM command whose `<E>`/`<SEED>` tokens are missing is not a
parse error: the failed extractions write 0 (C++11), so for every V > 0
(given as a digit token) the request builds the edge-less undirected
graph on V vertices. -/
theorem C10_random_omitted_tokens_default_to_zero (tok : String) (V : Nat)
    (hne : tok.data ≠ []) (hdig : ∀ c ∈ tok.data, isDigitChar c = true)
    (hval : digitsToNat tok.data = V) (hV : 0 < V)
    (stream : Nat → Nat × Nat) (fuel : Nat) :
    build_graph_from_command ("ALG ALL RANDOM " ++ tok) stream fuel =
      .ok (Graph.make V .Undirected ⟨false, false⟩) ∧
    (Graph.make V .Undirected ⟨false, false⟩).n = V ∧
    (Graph.make V .Undirected ⟨false, false⟩).m = 0 ∧
    (Graph.make V .Undirected ⟨false, false⟩).directed = false := by
  have hdata : ("ALG ALL RANDOM " ++ tok).data
      = 'A' :: 'L' :: 'G' :: ' ' :: 'A' :: 'L' :: 'L' :: ' '
        :: 'R' :: 'A' :: 'N' :: 'D' :: 'O' :: 'M' :: ' ' :: tok.data := by
    rw [String.data_append]
    rfl
  have h1 : readToken ⟨("ALG ALL RANDOM " ++ tok).data, false⟩
      = ("ALG", ⟨' ' :: 'A' :: 'L' :: 'L' :: ' '
          :: 'R' :: 'A' :: 'N' :: 'D' :: 'O' :: 'M' :: ' ' :: tok.data, false⟩) := by
    rw [hdata]
    rfl
  have h2 : readToken ⟨' ' :: 'A' :: 'L' :: 'L' :: ' '
        :: 'R' :: 'A' :: 'N' :: 'D' :: 'O' :: 'M' :: ' ' :: tok.data, false⟩
      = ("ALL", ⟨' ' :: 'R' :: 'A' :: 'N' :: 'D' :: 'O' :: 'M' :: ' ' :: tok.data, false⟩) := by
    rfl
  have h3 : readToken ⟨' ' :: 'R' :: 'A' :: 'N' :: 'D' :: 'O' :: 'M' :: ' ' :: tok.data, false⟩
      = ("RANDOM", ⟨' ' :: tok.data, false⟩) := by
    rfl
  have hU : readUInt ⟨' ' :: tok.data, false⟩ = (V, ⟨[], false⟩) := by
    rw [readUInt_digit_chars hne hdig, hval]
  have hV0 : (V == 0) = false := by
    simp [Nat.pos_iff_ne_zero.mp hV]
  refine ⟨?_, by simp [Graph.make, Graph.n], rfl, rfl⟩
  unfold build_graph_from_command
  simp only [h1, h2, h3, hU]
  rw [if_neg (by decide), if_pos (by decide), if_neg (by simp [hV0])]
  have hargs : make_random_graph V (readUInt ⟨[], false⟩).1 stream
      ((readToken (readUInt (readUInt ⟨[], false⟩).2).2).1 == "--directed") fuel
      = make_random_graph V 0 stream false fuel := rfl
  rw [hargs]
  unfold make_random_graph
  cases fuel <;> rfl

/-- C10 witness: `ALG ALL RANDOM 5` is accepted and builds the edge-less
undirected graph on five vertices. -/
theorem C10_random_omitted_tokens_default_to_zero_witness :
    build_graph_from_command ("ALG ALL RANDOM " ++ "5") (fun _ => (0, 0)) 0 =
      .ok (Graph.make 5 .Undirected ⟨false, false⟩) ∧
    (Graph.make 5 .Undirected ⟨false, false⟩).n = 5 ∧
    (Graph.make 5 .Undirected ⟨false, false⟩).m = 0 ∧
    (Graph.make 5 .Undirected ⟨false, false⟩).directed = false :=
  C10_random_omitted_tokens_default_to_zero "5" 5 (by decide) (by decide) (by decide)
    (by decide) (fun _ => (0, 0)) 0

/-- C8: graph construction and analysis are deterministic as a two-run
property.  The embedding is pure: `make_random_graph` depends only on V,
E, the directed flag and the proposal stream (a fixed function of the
seed in C++), so equal seeds give equal graphs — equal edge sets in
particular — and each of the four algorithm run functions sends equal
graphs to equal output text. -/
theorem C8_two_run_determinism :
    (∀ (V E : Nat) (d : Bool) (fuel : Nat) (s1 s2 : Nat → Nat × Nat) (g1 g2 : Graph),
        s1 = s2 → make_random_graph V E s1 d fuel = .ok g1 →
        make_random_graph V E s2 d fuel = .ok g2 →
        g1 = g2 ∧ g1.m_adj = g2.m_adj) ∧
    (∀ g1 g2 : Graph, g1 = g2 →
        AlgoMstWeight_run g1 = AlgoMstWeight_run g2 ∧
        AlgoSccCount_run g1 = AlgoSccCount_run g2 ∧
        AlgoMaxFlow_run g1 = AlgoMaxFlow_run g2 ∧
        AlgoHamilton_run g1 = AlgoHamilton_run g2) := by
  constructor
  · rintro V E d fuel s1 s2 g1 g2 rfl h1 h2
    rw [h1] at h2
    cases h2
    exact ⟨rfl, rfl⟩
  · rintro g1 g2 rfl
    exact ⟨rfl, rfl, rfl, rfl⟩

/-- C8 witness: both parts applied at concrete inputs. -/
theorem C8_two_run_determinism_witness :
    (Graph.make 3 .Undirected ⟨false, false⟩ = Graph.make 3 .Undirected ⟨false, false⟩ ∧
      (Graph.make 3 .Undirected ⟨false, false⟩).m_adj =
        (Graph.make 3 .Undirected ⟨false, false⟩).m_adj) ∧
    (AlgoMstWeight_run (Graph.make 2 .Undirected ⟨false, false⟩) =
        AlgoMstWeight_run (Graph.make 2 .Undirected ⟨false, false⟩) ∧
      AlgoSccCount_run (Graph.make 2 .Undirected ⟨false, false⟩) =
        AlgoSccCount_run (Graph.make 2 .Undirected ⟨false, false⟩) ∧
      AlgoMaxFlow_run (Graph.make 2 .Undirected ⟨false, false⟩) =
        AlgoMaxFlow_run (Graph.make 2 .Undirected ⟨false, false⟩) ∧
      AlgoHamilton_run (Graph.make 2 .Undirected ⟨false, false⟩) =
        AlgoHamilton_run (Graph.make 2 .Undirected ⟨false, false⟩)) :=
  ⟨C8_two_run_determinism.1 3 0 false 0 (fun _ => (0, 0)) (fun _ => (0, 0)) _ _ rfl
      (by decide) (by decide),
   C8_two_run_determinism.2 (Graph.make 2 .Undirected ⟨false, false⟩) _ rfl⟩

/-- The single-leadership invariant of the Leader/Followers pool. -/
def LFInv {n : Nat} (s : LFState n) : Prop :=
  tokenCount s = if s.hasLeader then 1 else 0

/-- Replacing a worker's position by one with the same token status keeps
the token count. -/
theorem tokenCount_setPC_same {n : Nat} (s : LFState n) (i : Fin n) (p : WorkerPC)
    (h : holdsToken p = holdsToken (s.pc i)) :
    tokenCount (setPC s i p) = tokenCount s := by
  have hfun : (fun j => holdsToken (Function.update s.pc i p j) = true)
      = fun j => holdsToken (s.pc j) = true := by
    funext j
    by_cases hj : j = i
    · subst hj
      simp [Function.update_same, h]
    · simp [Function.update_noteq hj]
  simp [tokenCount, setPC, hfun]

/-- Moving a worker from a token-free position to a token-holding one
raises the token count by one. -/
theorem tokenCount_setPC_gain {n : Nat} (s : LFState n) (i : Fin n) (p : WorkerPC)
    (hold : holdsToken (s.pc i) = false) (hnew : holdsToken p = true) :
    tokenCount (setPC s i p) = tokenCount s + 1 := by
  have hset : (Finset.univ.filter (fun j => holdsToken (Function.update s.pc i p j) = true))
      = insert i (Finset.univ.filter (fun j => holdsToken (s.pc j) = true)) := by
    ext j
    by_cases hj : j = i
    · subst hj
      simp [Function.update_same, hnew]
    · simp [Function.update_noteq hj, hj]
  have hi : i ∉ Finset.univ.filter (fun j => holdsToken (s.pc j) = true) := by
    simp [hold]
  simp [tokenCount, setPC, hset, Finset.card_insert_of_not_mem hi]

/-- Moving a worker from a token-holding position to a token-free one
lowers the token count by one. -/
theorem tokenCount_setPC_loss {n : Nat} (s : LFState n) (i : Fin n) (p : WorkerPC)
    (hold : holdsToken (s.pc i) = true) (hnew : holdsToken p = false) :
    tokenCount s = tokenCount (setPC s i p) + 1 := by
  have hset : (Finset.univ.filter (fun j => holdsToken (s.pc j) = true))
      = insert i (Finset.univ.filter (fun j => holdsToken (Function.update s.pc i p j) = true)) := by
    ext j
    by_cases hj : j = i
    · subst hj
      simp [Function.update_same, hold, hnew]
    · simp [Function.update_noteq hj, hj]
  have hi : i ∉ Finset.univ.filter (fun j => holdsToken (Function.update s.pc i p j) = true) := by
    simp [Function.update_same, hnew]
  have hgoal : tokenCount (setPC s i p)
      = (Finset.univ.filter (fun j => holdsToken (Function.update s.pc i p j) = true)).card := by
    simp [tokenCount, setPC]
  rw [tokenCount, hset, Finset.card_insert_of_not_mem hi, hgoal]

/-- The token count ignores the flag fields of the state. -/
theorem tokenCount_withFlags {n : Nat} (pc : Fin n → WorkerPC) (b1 b2 c1 c2 : Bool) :
    tokenCount (⟨pc, b1, b2⟩ : LFState n) = tokenCount (⟨pc, c1, c2⟩ : LFState n) := rfl

/-- Every transition preserves the single-leadership invariant. -/
theorem LFInv_step {n : Nat} {s s' : LFState n} (h : LFStep n s s') (hs : LFInv s) :
    LFInv s' := by
  cases h with
  | exitOnStop i hw hst =>
    unfold LFInv at *
    rw [tokenCount_setPC_same s i _ (by rw [hw]; rfl)]
    exact hs
  | acquire i hw hstop hnl =>
    unfold LFInv at *
    have hc : tokenCount { setPC s i .accepting with hasLeader := true }
        = tokenCount (setPC s i .accepting) := rfl
    rw [hc, tokenCount_setPC_gain s i WorkerPC.accepting (by rw [hw]; rfl) rfl, hs, hnl]
    simp
  | acceptRet i ok hw =>
    unfold LFInv at *
    rw [tokenCount_setPC_same s i _ (by rw [hw]; rfl)]
    exact hs
  | handoff i ok hw =>
    unfold LFInv at *
    have hnew : holdsToken (if ok then WorkerPC.processing
        else if s.stop then WorkerPC.exited else WorkerPC.waiting) = false := by
      cases ok
      · cases hstop : s.stop <;> simp [hstop, holdsToken]
      · simp [holdsToken]
    have hloss := tokenCount_setPC_loss s i (if ok then WorkerPC.processing
        else if s.stop then WorkerPC.exited else WorkerPC.waiting) (by rw [hw]; rfl) hnew
    cases hhl : s.hasLeader
    · exfalso
      rw [hhl] at hs
      simp at hs
      rw [hs] at hloss
      omega
    · rw [hhl] at hs
      simp at hs
      rw [hs] at hloss
      have hz : tokenCount (setPC s i (if ok then WorkerPC.processing
          else if s.stop then WorkerPC.exited else WorkerPC.waiting)) = 0 := by omega
      exact hz
  | finishClient i hw =>
    unfold LFInv at *
    rw [tokenCount_setPC_same s i _ (by rw [hw]; rfl)]
    exact hs
  | sigint =>
    unfold LFInv at *
    exact hs

/-- The invariant holds in every reachable state. -/
theorem LFInv_reachable {n : Nat} {s : LFState n} (h : LFReachable n s) : LFInv s := by
  unfold LFReachable at h
  induction h with
  | refl =>
    unfold LFInv LFInit tokenCount
    simp [holdsToken]
  | tail hsteps hstep ih => exact LFInv_step hstep ih

/-- C9: in every reachable state of the Leader/Followers pool at most one
worker is blocked in `accept`; the number of leadership-token holders is
1 when `g_has_leader` is set and 0 otherwise; and the only transition
that puts a worker into `processing` is the handoff out of a successful
`accept`, which clears the leadership flag in the same step — leadership
is released before any request processing begins. -/
theorem C9_leader_followers_exclusivity (n : Nat) (s : LFState n)
    (h : LFReachable n s) :
    acceptCount s ≤ 1 ∧
    tokenCount s = (if s.hasLeader then 1 else 0) ∧
    (∀ (s' : LFState n) (i : Fin n), LFStep n s s' →
        s.pc i ≠ .processing → s'.pc i = .processing →
        s.pc i = .releasing true ∧ s'.hasLeader = false) := by
  have hinv := LFInv_reachable h
  refine ⟨?_, hinv, ?_⟩
  · have hsub : acceptCount s ≤ tokenCount s := by
      apply Finset.card_le_card
      intro j hj
      rw [Finset.mem_filter] at hj ⊢
      refine ⟨hj.1, ?_⟩
      rw [hj.2]
      rfl
    have h1 : tokenCount s ≤ 1 := by
      unfold LFInv at hinv
      rw [hinv]
      split <;> omega
    exact le_trans hsub h1
  · intro s' i hstep hnp hp
    cases hstep with
    | exitOnStop j hw hst =>
      by_cases hij : i = j
      · subst hij
        simp [setPC, Function.update_same] at hp
      · simp [setPC, Function.update_noteq hij] at hp
        exact absurd hp hnp
    | acquire j hw hstop hnl =>
      by_cases hij : i = j
      · subst hij
        simp [setPC, Function.update_same] at hp
      · simp [setPC, Function.update_noteq hij] at hp
        exact absurd hp hnp
    | acceptRet j ok hw =>
      by_cases hij : i = j
      · subst hij
        simp [setPC, Function.update_same] at hp
      · simp [setPC, Function.update_noteq hij] at hp
        exact absurd hp hnp
    | handoff j ok hw =>
      by_cases hij : i = j
      · subst hij
        simp only [setPC, Function.update_same] at hp
        cases ok
        · cases hstop : s.stop <;> simp [hstop] at hp
        · exact ⟨hw, rfl⟩
      · simp [setPC, Function.update_noteq hij] at hp
        exact absurd hp hnp
    | finishClient j hw =>
      by_cases hij : i = j
      · subst hij
        simp [setPC, Function.update_same] at hp
      · simp [setPC, Function.update_noteq hij] at hp
        exact absurd hp hnp
    | sigint =>
      exact absurd hp hnp

/-- C9 witness: the property at the initial state of a two-worker pool. -/
theorem C9_leader_followers_exclusivity_witness :
    acceptCount (LFInit 2) ≤ 1 ∧
    tokenCount (LFInit 2) = (if (LFInit 2).hasLeader then 1 else 0) ∧
    (∀ (s' : LFState 2) (i : Fin 2), LFStep 2 (LFInit 2) s' →
        (LFInit 2).pc i ≠ .processing → s'.pc i = .processing →
        (LFInit 2).pc i = .releasing true ∧ s'.hasLeader = false) :=
  C9_leader_followers_exclusivity 2 (LFInit 2) Relation.ReflTransGen.refl

/-! ## C5: what `make_random_graph` builds -/

/-- No adjacency entry is a self-loop. -/
def Graph.noSelfLoops (g : Graph) : Prop := ∀ u : Nat, ∀ e ∈ g.adj u, e.1 ≠ u

/-- Each adjacency list mentions each neighbor at most once: the
recorded edges are pairwise distinct. -/
def Graph.nodupAdj (g : Graph) : Prop := ∀ u : Nat, ((g.adj u).map Prod.fst).Nodup

/-- An arc exists exactly when the neighbor appears in the adjacency. -/
theorem hasArc_iff_mem {g : Graph} {a b : Nat} :
    g.hasArc a b = true ↔ b ∈ (g.adj a).map Prod.fst := by
  simp only [Graph.hasArc, List.any_eq_true, List.mem_map, beq_iff_eq]

/-- Writing adjacency list `u` then reading it back. -/
theorem getD_set_self {L : List (List (Nat × Int))} {u : Nat} (h : u < L.length)
    (x : List (Nat × Int)) : (L.set u x).getD u [] = x := by
  simp [List.getD, List.getElem?_set_self, h]

/-- Writing adjacency list `u` leaves the others alone. -/
theorem getD_set_other {L : List (List (Nat × Int))} {u a : Nat} (h : u ≠ a)
    (x : List (Nat × Int)) : (L.set u x).getD a [] = L.getD a [] := by
  simp [List.getD, List.getElem?_set_ne h]

/-- `addEdge` on a directed graph, fresh arc: the exact result. -/
theorem addEdge_fresh_dir {g : Graph} {u v : Nat} (hu : u < g.n) (hv : v < g.n)
    (huv : u ≠ v) (hdir : g.directed = true) (harc1 : g.hasArc u v = false) :
    g.addEdge u v 1 = .ok ⟨g.m_kind, g.m_opts, g.m_adj.set u (g.adj u ++ [(v, 1)]),
      g.m_edgesLogical + 1⟩ := by
  have c1 : ¬ ((g.n ≤ u || g.n ≤ v) = true) := by
    simp [Nat.not_le.mpr hu, Nat.not_le.mpr hv]
  have c2 : ¬ ((!g.m_opts.allowSelfLoops && u == v) = true) := by
    simp [huv]
  have c3 : ¬ ((!g.m_opts.allowMultiEdges
      && (g.hasArc u v || (!g.directed && g.hasArc v u))) = true) := by
    simp [harc1, hdir]
  unfold Graph.addEdge
  rw [if_neg c1, if_neg c2, if_neg c3]
  simp only [hdir, if_true]
  rfl

/-- `addEdge` on an undirected graph, fresh edge: the exact result. -/
theorem addEdge_fresh_undir {g : Graph} {u v : Nat} (hu : u < g.n) (hv : v < g.n)
    (huv : u ≠ v) (hdir : g.directed = false)
    (harc1 : g.hasArc u v = false) (harc2 : g.hasArc v u = false) :
    g.addEdge u v 1 = .ok ⟨g.m_kind, g.m_opts,
      (g.m_adj.set u (g.adj u ++ [(v, 1)])).set v (g.adj v ++ [(u, 1)]),
      g.m_edgesLogical + 1⟩ := by
  have c1 : ¬ ((g.n ≤ u || g.n ≤ v) = true) := by
    simp [Nat.not_le.mpr hu, Nat.not_le.mpr hv]
  have c2 : ¬ ((!g.m_opts.allowSelfLoops && u == v) = true) := by
    simp [huv]
  have c3 : ¬ ((!g.m_opts.allowMultiEdges
      && (g.hasArc u v || (!g.directed && g.hasArc v u))) = true) := by
    simp [harc1, harc2, hdir]
  unfold Graph.addEdge
  rw [if_neg c1, if_neg c2, if_neg c3]
  simp only [hdir, if_false, Bool.false_eq_true]
  rw [getD_set_other huv]
  rfl

/-- Adding a fresh edge between distinct valid endpoints: the result has
one more logical edge, the arcs grow by exactly `u→v` (plus `v→u` when
undirected), and freedom from self-loops and parallel edges is
preserved. -/
theorem addEdge_fresh {g : Graph} {u v : Nat} (hu : u < g.n) (hv : v < g.n)
    (huv : u ≠ v)
    (harc1 : g.hasArc u v = false)
    (harc2 : g.directed = false → g.hasArc v u = false) :
    ∃ g', g.addEdge u v 1 = .ok g' ∧
      g'.n = g.n ∧ g'.m = g.m + 1 ∧ g'.directed = g.directed ∧ g'.m_opts = g.m_opts ∧
      (∀ a b : Nat, g'.hasArc a b = true ↔
        (g.hasArc a b = true ∨ (a = u ∧ b = v) ∨ (g.directed = false ∧ a = v ∧ b = u))) ∧
      (Graph.noSelfLoops g → Graph.noSelfLoops g') ∧
      (Graph.nodupAdj g → Graph.nodupAdj g') := by
  have humem : v ∉ (g.adj u).map Prod.fst := by
    intro hmem
    rw [← hasArc_iff_mem] at hmem
    simp [harc1] at hmem
  cases hdir : g.directed with
  | true =>
    have hadj : ∀ a : Nat,
        (⟨g.m_kind, g.m_opts, g.m_adj.set u (g.adj u ++ [(v, 1)]),
          g.m_edgesLogical + 1⟩ : Graph).adj a
        = if a = u then g.adj u ++ [(v, 1)] else g.adj a := by
      intro a
      by_cases hau : a = u
      · rw [if_pos hau, hau]
        exact getD_set_self hu _
      · rw [if_neg hau]
        exact getD_set_other (fun h => hau h.symm) _
    refine ⟨_, addEdge_fresh_dir hu hv huv hdir harc1,
      by simp [Graph.n], rfl, hdir, rfl, ?_, ?_, ?_⟩
    · intro a b
      rw [hasArc_iff_mem, hasArc_iff_mem, hadj a]
      by_cases hau : a = u
      · subst hau
        rw [if_pos rfl]
        simp [List.mem_append]
      · rw [if_neg hau]
        simp [hau]
    · intro hns a e he
      rw [hadj a] at he
      by_cases hau : a = u
      · rw [if_pos hau] at he
        rcases List.mem_append.mp he with h1 | h2
        · rw [hau]
          exact hns u e h1
        · rw [List.mem_singleton.mp h2, hau]
          exact fun hh => huv hh.symm
      · rw [if_neg hau] at he
        exact hns a e he
    · intro hnd a
      rw [hadj a]
      by_cases hau : a = u
      · rw [if_pos hau, List.map_append]
        rw [List.nodup_append]
        refine ⟨hnd u, List.nodup_singleton v, ?_⟩
        intro x hx hxv
        rw [List.mem_singleton.mp hxv] at hx
        exact humem hx
      · rw [if_neg hau]
        exact hnd a
  | false =>
    have hvmem : u ∉ (g.adj v).map Prod.fst := by
      intro hmem
      rw [← hasArc_iff_mem] at hmem
      simp [harc2 hdir] at hmem
    have hadj : ∀ a : Nat,
        (⟨g.m_kind, g.m_opts,
          (g.m_adj.set u (g.adj u ++ [(v, 1)])).set v (g.adj v ++ [(u, 1)]),
          g.m_edgesLogical + 1⟩ : Graph).adj a
        = if a = u then g.adj u ++ [(v, 1)]
          else if a = v then g.adj v ++ [(u, 1)] else g.adj a := by
      intro a
      have hadjL : (⟨g.m_kind, g.m_opts,
          (g.m_adj.set u (g.adj u ++ [(v, 1)])).set v (g.adj v ++ [(u, 1)]),
          g.m_edgesLogical + 1⟩ : Graph).adj a
          = ((g.m_adj.set u (g.adj u ++ [(v, 1)])).set v (g.adj v ++ [(u, 1)])).getD a [] := rfl
      rw [hadjL]
      by_cases hav : a = v
      · subst hav
        rw [if_neg (fun h => huv h.symm), if_pos rfl]
        exact getD_set_self (by simpa [Graph.n] using hv) _
      · by_cases hau : a = u
        · subst hau
          rw [if_pos rfl, getD_set_other (fun h => hav h.symm) _]
          exact getD_set_self hu _
        · rw [if_neg hau, if_neg hav, getD_set_other (fun h => hav h.symm) _]
          exact getD_set_other (fun h => hau h.symm) _
    refine ⟨_, addEdge_fresh_undir hu hv huv hdir harc1 (harc2 hdir),
      by simp [Graph.n], rfl, hdir, rfl, ?_, ?_, ?_⟩
    · intro a b
      rw [hasArc_iff_mem, hasArc_iff_mem, hadj a]
      by_cases hau : a = u
      · subst hau
        rw [if_pos rfl, List.map_append, List.mem_append]
        constructor
        · rintro (h1 | h1)
          · exact Or.inl h1
          · exact Or.inr (Or.inl ⟨rfl, by simpa using h1⟩)
        · rintro (h1 | ⟨_, rfl⟩ | ⟨_, h2, _⟩)
          · exact Or.inl h1
          · exact Or.inr (by simp)
          · exact absurd h2 huv
      · by_cases hav : a = v
        · subst hav
          rw [if_neg hau, if_pos rfl, List.map_append, List.mem_append]
          constructor
          · rintro (h1 | h1)
            · exact Or.inl h1
            · exact Or.inr (Or.inr ⟨rfl, rfl, by simpa using h1⟩)
          · rintro (h1 | ⟨h2, _⟩ | ⟨_, _, rfl⟩)
            · exact Or.inl h1
            · exact absurd h2 hau
            · exact Or.inr (by simp)
        · rw [if_neg hau, if_neg hav]
          constructor
          · exact fun h1 => Or.inl h1
          · rintro (h1 | ⟨h2, _⟩ | ⟨_, h2, _⟩)
            · exact h1
            · exact absurd h2 hau
            · exact absurd h2 hav
    · intro hns a e he
      rw [hadj a] at he
      by_cases hau : a = u
      · rw [if_pos hau] at he
        rcases List.mem_append.mp he with h1 | h2
        · rw [hau]
          exact hns u e h1
        · rw [List.mem_singleton.mp h2, hau]
          exact fun hh => huv hh.symm
      · by_cases hav : a = v
        · rw [if_neg hau, if_pos hav] at he
          rcases List.mem_append.mp he with h1 | h2
          · rw [hav]
            exact hns v e h1
          · rw [List.mem_singleton.mp h2, hav]
            exact huv
        · rw [if_neg hau, if_neg hav] at he
          exact hns a e he
    · intro hnd a
      rw [hadj a]
      by_cases hau : a = u
      · rw [if_pos hau, List.map_append, List.nodup_append]
        refine ⟨hnd u, List.nodup_singleton v, ?_⟩
        intro x hx hxv
        rw [List.mem_singleton.mp hxv] at hx
        exact humem hx
      · by_cases hav : a = v
        · rw [if_neg hau, if_pos hav, List.map_append, List.nodup_append]
          refine ⟨hnd v, List.nodup_singleton u, ?_⟩
          intro x hx hxu
          rw [List.mem_singleton.mp hxu] at hx
          exact hvmem hx
        · rw [if_neg hau, if_neg hav]
          exact hnd a

/-- Canonical undirected keys are equal exactly for the same unordered
pair. -/
theorem canon_eq_iff {u v a b : Nat} :
    ((min a b, max a b) = (min u v, max u v)) ↔ ((a = u ∧ b = v) ∨ (a = v ∧ b = u)) := by
  constructor
  · intro h
    injection h with h1 h2
    omega
  · rintro (⟨rfl, rfl⟩ | ⟨rfl, rfl⟩)
    · rfl
    · rw [Nat.min_comm, Nat.max_comm]

/-- Partial correctness of the `make_random_graph` loop: from any state
satisfying the invariant, a normal return yields a graph with exactly
`E` logical edges, no self-loops, pairwise distinct edges and `V`
vertices. -/
theorem mrg_go_ok {V E : Nat} {directed : Bool} {stream : Nat → Nat × Nat}
    (hstream : ∀ k : Nat, (stream k).1 < V ∧ (stream k).2 < V) :
    ∀ (fuel k : Nat) (g : Graph) (seen : List (Nat × Nat)) (added : Nat) (out : Graph),
      g.n = V → g.directed = directed → g.m = added → added ≤ E →
      Graph.noSelfLoops g → Graph.nodupAdj g →
      (∀ a b : Nat, g.hasArc a b = true ↔
        (if directed then (a, b) ∈ seen else (min a b, max a b) ∈ seen)) →
      make_random_graph_go E directed stream fuel k g seen added = .ok out →
      out.m = E ∧ Graph.noSelfLoops out ∧ Graph.nodupAdj out ∧ out.n = V := by
  intro fuel
  induction fuel with
  | zero =>
    intro k g seen added out hn hdir hm hle hns hnd harcs hrun
    unfold make_random_graph_go at hrun
    by_cases hlt : added < E
    · rw [if_pos hlt] at hrun
      cases hrun
    · rw [if_neg hlt] at hrun
      cases hrun
      exact ⟨by omega, hns, hnd, hn⟩
  | succ fuel ih =>
    intro k g seen added out hn hdir hm hle hns hnd harcs hrun
    unfold make_random_graph_go at hrun
    by_cases hlt : added < E
    · rw [if_pos hlt] at hrun
      by_cases heq : (stream k).1 = (stream k).2
      · rw [if_pos (by simp [heq])] at hrun
        exact ih (k + 1) g seen added out hn hdir hm hle hns hnd harcs hrun
      · rw [if_neg (by simp [heq])] at hrun
        by_cases hseen : (if directed then ((stream k).1, (stream k).2)
            else (min (stream k).1 (stream k).2, max (stream k).1 (stream k).2)) ∈ seen
        · rw [if_pos (by simpa using hseen)] at hrun
          exact ih (k + 1) g seen added out hn hdir hm hle hns hnd harcs hrun
        · rw [if_neg (by simpa using hseen)] at hrun
          -- the fresh branch: addEdge succeeds and the invariant carries over
          have hu : (stream k).1 < g.n := hn ▸ (hstream k).1
          have hv : (stream k).2 < g.n := hn ▸ (hstream k).2
          have harc1 : g.hasArc (stream k).1 (stream k).2 = false := by
            rw [Bool.eq_false_iff]
            intro hcontra
            rw [harcs] at hcontra
            rcases Bool.eq_false_or_eq_true directed with hd | hd
            · rw [hd] at hcontra hseen
              simp at hcontra hseen
              exact hseen hcontra
            · rw [hd] at hcontra hseen
              simp at hcontra hseen
              exact hseen hcontra
          have harc2 : g.directed = false → g.hasArc (stream k).2 (stream k).1 = false := by
            intro hdf
            have hd : directed = false := by rw [← hdir]; exact hdf
            rw [Bool.eq_false_iff]
            intro hcontra
            rw [harcs] at hcontra
            rw [hd] at hcontra hseen
            simp at hcontra hseen
            rw [Nat.min_comm, Nat.max_comm] at hcontra
            exact hseen hcontra
          obtain ⟨g', hadd, hn', hm', hdir', hopts', harcs', hns', hnd'⟩ :=
            addEdge_fresh hu hv heq harc1 harc2
          rw [hadd] at hrun
          have hrun' : make_random_graph_go E directed stream fuel (k + 1) g'
              ((if directed = true then ((stream k).1, (stream k).2)
                else (min (stream k).1 (stream k).2, max (stream k).1 (stream k).2)) :: seen)
              (added + 1) = Outcome.ok out := hrun
          apply ih (k + 1) g' _ (added + 1) out (hn' ▸ hn) (hdir' ▸ hdir)
            (by rw [hm', hm]) (by omega) (hns' hns) (hnd' hnd) ?_ hrun'
          intro a b
          rw [harcs' a b]
          rcases Bool.eq_false_or_eq_true directed with hd | hd
          · rw [hd] at harcs ⊢
            simp only [if_true, List.mem_cons]
            rw [harcs a b]
            simp only [if_true]
            have hdirg : g.directed = true := by rw [hdir, hd]
            rw [hdirg]
            constructor
            · rintro (h1 | ⟨rfl, rfl⟩ | ⟨hfalse, _⟩)
              · exact Or.inr h1
              · exact Or.inl rfl
              · cases hfalse
            · rintro (h1 | h1)
              · injection h1 with h2 h3
                exact Or.inr (Or.inl ⟨h2, h3⟩)
              · exact Or.inl h1
          · rw [hd] at harcs ⊢
            simp only [if_false, Bool.false_eq_true, List.mem_cons]
            rw [harcs a b]
            simp only [if_false, Bool.false_eq_true]
            have hdirg : g.directed = false := by rw [hdir, hd]
            rw [hdirg]
            constructor
            · rintro (h1 | ⟨rfl, rfl⟩ | ⟨_, rfl, rfl⟩)
              · exact Or.inr h1
              · exact Or.inl rfl
              · exact Or.inl (by rw [Nat.min_comm, Nat.max_comm])
            · rintro (h1 | h1)
              · rcases canon_eq_iff.mp h1 with ⟨rfl, rfl⟩ | ⟨rfl, rfl⟩
                · exact Or.inr (Or.inl ⟨rfl, rfl⟩)
                · exact Or.inr (Or.inr ⟨rfl, rfl, rfl⟩)
              · exact Or.inl h1
    · rw [if_neg hlt] at hrun
      cases hrun
      exact ⟨by omega, hns, hnd, hn⟩

/-- Adjacency of the freshly constructed graph is empty. -/
theorem adj_make_empty (V : Nat) (kind : GraphKind) (opts : GraphOptions) (u : Nat) :
    (Graph.make V kind opts).adj u = [] := by
  unfold Graph.make Graph.adj
  rcases Nat.lt_or_ge u V with h | h
  · simp [List.getD, List.getElem?_replicate, h]
  · simp [List.getD, List.getElem?_replicate, Nat.not_lt.mpr h]

/-- Partial correctness of `make_random_graph`: whenever it terminates
normally — the proposal stream draws endpoints below `V`, as
`uniform_int_distribution(0, V-1)` does — the resulting graph has
exactly `E` logical edges, no self-loops, pairwise distinct edges and
`V` vertices. -/
theorem make_random_graph_exact_edges (V E : Nat) (stream : Nat → Nat × Nat)
    (directed : Bool) (fuel : Nat) (out : Graph)
    (hstream : ∀ k : Nat, (stream k).1 < V ∧ (stream k).2 < V)
    (h : make_random_graph V E stream directed fuel = .ok out) :
    out.m = E ∧ Graph.noSelfLoops out ∧ Graph.nodupAdj out ∧ out.n = V := by
  have hinit : ∀ u : Nat, (Graph.make V (if directed then .Directed else .Undirected)
      { allowSelfLoops := false, allowMultiEdges := false }).adj u = [] :=
    fun u => adj_make_empty V _ _ u
  have h' : make_random_graph_go E directed stream fuel 0
      (Graph.make V (if directed then .Directed else .Undirected)
        { allowSelfLoops := false, allowMultiEdges := false }) [] 0 = .ok out := h
  refine mrg_go_ok hstream fuel 0 _ [] 0 out ?_ ?_ ?_ (Nat.zero_le E) ?_ ?_ ?_ h'
  · cases directed <;> simp [Graph.make, Graph.n]
  · cases directed <;> rfl
  · rfl
  · intro u e he
    rw [hinit u] at he
    cases he
  · intro u
    rw [hinit u]
    exact List.nodup_nil
  · intro a b
    constructor
    · intro hcontra
      rw [hasArc_iff_mem, hinit a] at hcontra
      cases hcontra
    · intro hmem
      rcases Bool.eq_false_or_eq_true directed with hd | hd <;> rw [hd] at hmem <;>
        simp at hmem

/-- When every proposal is a self-loop the loop never makes progress:
with E still to reach it burns all fuel and diverges. -/
theorem mrg_go_selfloops {E : Nat} {directed : Bool} {stream : Nat → Nat × Nat}
    (hself : ∀ k : Nat, (stream k).1 = (stream k).2) (hE : 0 < E) :
    ∀ (fuel k : Nat) (g : Graph) (seen : List (Nat × Nat)),
      make_random_graph_go E directed stream fuel k g seen 0 = .diverge := by
  intro fuel
  induction fuel with
  | zero =>
    intro k g seen
    unfold make_random_graph_go
    rw [if_pos hE]
  | succ fuel ih =>
    intro k g seen
    unfold make_random_graph_go
    rw [if_pos hE, if_pos (by simp [hself k])]
    exact ih (k + 1) g seen

/-- Does `make_random_graph` ever return a graph? -/
def makeRandomGraphTerminates (V E : Nat) (stream : Nat → Nat × Nat)
    (directed : Bool) : Prop :=
  ∃ (fuel : Nat) (g : Graph), make_random_graph V E stream directed fuel = .ok g

/-- C5 counterexample: for V = 1 every `uniform_int_distribution(0, 0)`
pick is 0, so every proposal is the self-loop `(0, 0)` and the
`while (added < E)` loop of `make_random_graph` never terminates for
E = 1 — against the claim's "for every vertex count V >= 1 ...
terminates". -/
theorem C5_counterexample_v1_never_terminates :
    ¬ makeRandomGraphTerminates 1 1 (fun _ => (0, 0)) false := by
  rintro ⟨fuel, g, hg⟩
  unfold make_random_graph at hg
  rw [mrg_go_selfloops (fun _ => rfl) (by decide) fuel 0 _ []] at hg
  cases hg

/-- The proposal stream eventually draws every vertex pair below `V`: the
`mt19937`-seeded `uniform_int_distribution(0, V-1)` proposals have this
property with probability 1. -/
def FairStream (stream : Nat → Nat × Nat) (V : Nat) : Prop :=
  ∀ (k u v : Nat), u < V → v < V → ∃ j, k ≤ j ∧ stream j = (u, v)

/-- All keys the `make_random_graph` loop can ever record on `V`
vertices: ordered pairs of distinct vertices when directed, `(min, max)`
pairs otherwise.  Its cardinality is the graph's edge capacity. -/
def validKeys (V : Nat) (directed : Bool) : Finset (Nat × Nat) :=
  if directed then
    (Finset.range V ×ˢ Finset.range V).filter (fun p => p.1 ≠ p.2)
  else
    (Finset.range V ×ˢ Finset.range V).filter (fun p => p.1 < p.2)

/-- As long as fewer keys are recorded than the capacity, some non-loop
pair's key is still unrecorded. -/
theorem exists_fresh_key {V : Nat} {directed : Bool} {seen : List (Nat × Nat)}
    (hsub : ∀ p ∈ seen, p ∈ validKeys V directed) (hnd : seen.Nodup)
    (hlt : seen.length < (validKeys V directed).card) :
    ∃ u v : Nat, u < V ∧ v < V ∧ u ≠ v ∧
      (if directed then (u, v) else (min u v, max u v)) ∉ seen := by
  have hex : ∃ p ∈ validKeys V directed, p ∉ seen := by
    by_contra hcon
    push_neg at hcon
    have hsubf : validKeys V directed ⊆ seen.toFinset := by
      intro p hp
      exact List.mem_toFinset.mpr (hcon p hp)
    have hc := Finset.card_le_card hsubf
    rw [List.toFinset_card_of_nodup hnd] at hc
    omega
  obtain ⟨p, hpv, hpn⟩ := hex
  obtain ⟨a, b⟩ := p
  rcases Bool.eq_false_or_eq_true directed with hd | hd
  · rw [hd] at hpv ⊢
    rw [validKeys, if_pos rfl] at hpv
    simp only [Finset.mem_filter, Finset.mem_product, Finset.mem_range] at hpv
    exact ⟨a, b, hpv.1.1, hpv.1.2, hpv.2, by simpa using hpn⟩
  · rw [hd] at hpv ⊢
    rw [validKeys, if_neg (by simp)] at hpv
    simp only [Finset.mem_filter, Finset.mem_product, Finset.mem_range] at hpv
    refine ⟨a, b, hpv.1.1, hpv.1.2, by omega, ?_⟩
    rw [if_neg (by simp)]
    have hmin : min a b = a := by omega
    have hmax : max a b = b := by omega
    rw [hmin, hmax]
    exact hpn

/-- The key of a non-loop in-range pair is a valid key. -/
theorem key_mem_validKeys {V : Nat} (directed : Bool) {u v : Nat}
    (hu : u < V) (hv : v < V) (huv : u ≠ v) :
    (if directed then (u, v) else (min u v, max u v)) ∈ validKeys V directed := by
  rcases Bool.eq_false_or_eq_true directed with hd | hd
  · rw [hd]
    rw [if_pos rfl, validKeys, if_pos rfl]
    simp only [Finset.mem_filter, Finset.mem_product, Finset.mem_range]
    exact ⟨⟨hu, hv⟩, huv⟩
  · rw [hd]
    rw [if_neg (by simp), validKeys, if_neg (by simp)]
    simp only [Finset.mem_filter, Finset.mem_product, Finset.mem_range]
    exact ⟨⟨by omega, by omega⟩, by omega⟩

/-- One productive iteration of the `make_random_graph` loop: adding a
fresh non-self-loop edge between in-range endpoints succeeds and
re-establishes the loop invariant with the new key recorded. -/
theorem mrg_step_invariant {V : Nat} {directed : Bool} {g : Graph}
    {seen : List (Nat × Nat)} (u v : Nat)
    (hu : u < V) (hv : v < V) (huv : u ≠ v)
    (hn : g.n = V) (hdir : g.directed = directed)
    (hns : Graph.noSelfLoops g) (hnd : Graph.nodupAdj g)
    (harcs : ∀ a b : Nat, g.hasArc a b = true ↔
        (if directed then (a, b) ∈ seen else (min a b, max a b) ∈ seen))
    (hfresh : (if directed then (u, v) else (min u v, max u v)) ∉ seen) :
    ∃ g', g.addEdge u v 1 = .ok g' ∧
      g'.n = V ∧ g'.directed = directed ∧ g'.m = g.m + 1 ∧
      Graph.noSelfLoops g' ∧ Graph.nodupAdj g' ∧
      (∀ a b : Nat, g'.hasArc a b = true ↔
        (if directed then
          (a, b) ∈ ((if directed then (u, v) else (min u v, max u v)) :: seen)
         else
          (min a b, max a b)
            ∈ ((if directed then (u, v) else (min u v, max u v)) :: seen))) := by
  have hu' : u < g.n := hn ▸ hu
  have hv' : v < g.n := hn ▸ hv
  have harc1 : g.hasArc u v = false := by
    rw [Bool.eq_false_iff]
    intro hcontra
    rw [harcs] at hcontra
    rcases Bool.eq_false_or_eq_true directed with hd | hd
    · rw [hd] at hcontra hfresh
      simp at hcontra hfresh
      exact hfresh hcontra
    · rw [hd] at hcontra hfresh
      simp at hcontra hfresh
      exact hfresh hcontra
  have harc2 : g.directed = false → g.hasArc v u = false := by
    intro hdf
    have hd : directed = false := by rw [← hdir]; exact hdf
    rw [Bool.eq_false_iff]
    intro hcontra
    rw [harcs] at hcontra
    rw [hd] at hcontra hfresh
    simp at hcontra hfresh
    rw [Nat.min_comm, Nat.max_comm] at hcontra
    exact hfresh hcontra
  obtain ⟨g', hadd, hn', hm', hdir', hopts', harcs', hns', hnd'⟩ :=
    addEdge_fresh hu' hv' huv harc1 harc2
  refine ⟨g', hadd, hn' ▸ hn, hdir' ▸ hdir, hm', hns' hns, hnd' hnd, ?_⟩
  intro a b
  rw [harcs' a b]
  rcases Bool.eq_false_or_eq_true directed with hd | hd
  · rw [hd] at harcs ⊢
    simp only [if_true, List.mem_cons]
    rw [harcs a b]
    simp only [if_true]
    have hdirg : g.directed = true := by rw [hdir, hd]
    rw [hdirg]
    constructor
    · rintro (h1 | ⟨rfl, rfl⟩ | ⟨hfalse, _⟩)
      · exact Or.inr h1
      · exact Or.inl rfl
      · cases hfalse
    · rintro (h1 | h1)
      · injection h1 with h2 h3
        exact Or.inr (Or.inl ⟨h2, h3⟩)
      · exact Or.inl h1
  · rw [hd] at harcs ⊢
    simp only [if_false, Bool.false_eq_true, List.mem_cons]
    rw [harcs a b]
    simp only [if_false, Bool.false_eq_true]
    have hdirg : g.directed = false := by rw [hdir, hd]
    rw [hdirg]
    constructor
    · rintro (h1 | ⟨rfl, rfl⟩ | ⟨_, rfl, rfl⟩)
      · exact Or.inr h1
      · exact Or.inl rfl
      · exact Or.inl (by rw [Nat.min_comm, Nat.max_comm])
    · rintro (h1 | h1)
      · rcases canon_eq_iff.mp h1 with ⟨rfl, rfl⟩ | ⟨rfl, rfl⟩
        · exact Or.inr (Or.inl ⟨rfl, rfl⟩)
        · exact Or.inr (Or.inr ⟨rfl, rfl, rfl⟩)
      · exact Or.inl h1

/-- Termination of the `make_random_graph` loop: from any state satisfying
the loop invariant, if the proposal stream stays below `V` and is fair and
the remaining quota fits the capacity, some fuel bound makes the loop
return normally. -/
theorem mrg_go_terminates {V E : Nat} {directed : Bool} {stream : Nat → Nat × Nat}
    (hstream : ∀ k : Nat, (stream k).1 < V ∧ (stream k).2 < V)
    (hfair : FairStream stream V)
    (hcap : E ≤ (validKeys V directed).card) :
    ∀ (d k : Nat) (g : Graph) (seen : List (Nat × Nat)) (added : Nat),
      added + d = E →
      g.n = V → g.directed = directed → g.m = added →
      Graph.noSelfLoops g → Graph.nodupAdj g →
      (∀ p ∈ seen, p ∈ validKeys V directed) → seen.Nodup →
      seen.length = added →
      (∀ a b : Nat, g.hasArc a b = true ↔
        (if directed then (a, b) ∈ seen else (min a b, max a b) ∈ seen)) →
      ∃ (fuel : Nat) (out : Graph),
        make_random_graph_go E directed stream fuel k g seen added = .ok out := by
  intro d
  induction d with
  | zero =>
    intro k g seen added hdE hn hdir hm hns hnd hsv hsnd hslen harcs
    refine ⟨0, g, ?_⟩
    unfold make_random_graph_go
    rw [if_neg (by omega)]
  | succ d ihd =>
    intro k g seen added hdE hn hdir hm hns hnd hsv hsnd hslen harcs
    have hlt : seen.length < (validKeys V directed).card := by omega
    obtain ⟨u, v, hu, hv, huv, hfresh⟩ := exists_fresh_key hsv hsnd hlt
    obtain ⟨j, hjk, hjeq⟩ := hfair k u v hu hv
    have hprodstep : ∀ k' : Nat, (stream k').1 ≠ (stream k').2 →
        (if directed then ((stream k').1, (stream k').2)
          else (min (stream k').1 (stream k').2,
            max (stream k').1 (stream k').2)) ∉ seen →
        ∃ (fuel : Nat) (out : Graph),
          make_random_graph_go E directed stream fuel k' g seen added = .ok out := by
      intro k' hne hfr
      obtain ⟨g', hadd, hn', hdir', hm', hns', hnd', harcs'⟩ :=
        mrg_step_invariant (stream k').1 (stream k').2 (hstream k').1 (hstream k').2
          hne hn hdir hns hnd harcs hfr
      obtain ⟨fuel, out, hout⟩ := ihd (k' + 1) g'
        ((if directed then ((stream k').1, (stream k').2)
          else (min (stream k').1 (stream k').2,
            max (stream k').1 (stream k').2)) :: seen)
        (added + 1) (by omega) hn' hdir' (by rw [hm', hm])
        hns' hnd'
        (by
          intro p hp
          rcases List.mem_cons.mp hp with hh | hh
          · rw [hh]
            exact key_mem_validKeys directed (hstream k').1 (hstream k').2 hne
          · exact hsv p hh)
        (List.nodup_cons.mpr ⟨hfr, hsnd⟩)
        (by rw [List.length_cons, hslen])
        harcs'
      refine ⟨fuel + 1, out, ?_⟩
      unfold make_random_graph_go
      rw [if_pos (by omega)]
      rw [if_neg (by simp [hne])]
      rw [if_neg (by simpa using hfr)]
      rw [hadd]
      exact hout
    have hreach : ∀ (n k' : Nat), k' ≤ j → j - k' ≤ n →
        ∃ (fuel : Nat) (out : Graph),
          make_random_graph_go E directed stream fuel k' g seen added = .ok out := by
      intro n
      induction n with
      | zero =>
        intro k' hk' hd0
        have hj : k' = j := by omega
        subst hj
        apply hprodstep
        · rw [hjeq]
          simpa using huv
        · rw [hjeq]
          simpa using hfresh
      | succ n ihn =>
        intro k' hk' hdn
        by_cases hself : (stream k').1 = (stream k').2
        · have hkj : k' ≠ j := by
            intro hcon
            rw [hcon, hjeq] at hself
            exact huv (by simpa using hself)
          obtain ⟨fuel, out, hout⟩ := ihn (k' + 1) (by omega) (by omega)
          refine ⟨fuel + 1, out, ?_⟩
          unfold make_random_graph_go
          rw [if_pos (by omega), if_pos (by simp [hself])]
          exact hout
        · by_cases hsn : (if directed then ((stream k').1, (stream k').2)
              else (min (stream k').1 (stream k').2,
                max (stream k').1 (stream k').2)) ∈ seen
          · have hkj : k' ≠ j := by
              intro hcon
              rw [hcon, hjeq] at hsn
              simp at hsn
              exact hfresh hsn
            obtain ⟨fuel, out, hout⟩ := ihn (k' + 1) (by omega) (by omega)
            refine ⟨fuel + 1, out, ?_⟩
            unfold make_random_graph_go
            rw [if_pos (by omega), if_neg (by simp [hself]),
              if_pos (by simpa using hsn)]
            exact hout
          · exact hprodstep k' hself hsn
    exact hreach (j - k) k hjk (by omega)

/-- **C5 (corrected).** Termination and exactness of `make_random_graph`:
whenever the proposed endpoints stay below `V`, the seeded generator
eventually proposes every vertex pair (as the uniform distribution over
`0..V-1` does), and `E` fits the capacity — the number of distinct
non-self-loop edges/arcs on `V` vertices — the collision-retry loop
terminates and returns a graph with exactly `E` distinct edges/arcs, no
self-loops and `V` vertices.  (For V = 1 the capacity is 0, and the
separate counterexample shows the loop never terminates for E = 1.) -/
theorem C5_random_graph_terminates_exact (V E : Nat) (stream : Nat → Nat × Nat)
    (directed : Bool)
    (hstream : ∀ k : Nat, (stream k).1 < V ∧ (stream k).2 < V)
    (hfair : FairStream stream V)
    (hcap : E ≤ (validKeys V directed).card) :
    ∃ (fuel : Nat) (out : Graph),
      make_random_graph V E stream directed fuel = .ok out ∧
      out.m = E ∧ Graph.noSelfLoops out ∧ Graph.nodupAdj out ∧ out.n = V := by
  have hadjz : ∀ u : Nat, (Graph.make V (if directed then .Directed else .Undirected)
      { allowSelfLoops := false, allowMultiEdges := false }).adj u = [] :=
    fun u => adj_make_empty V _ _ u
  obtain ⟨fuel, out, hout⟩ := mrg_go_terminates hstream hfair hcap E 0
    (Graph.make V (if directed then .Directed else .Undirected)
      { allowSelfLoops := false, allowMultiEdges := false }) [] 0
    (by omega)
    (by cases directed <;> simp [Graph.make, Graph.n])
    (by cases directed <;> rfl)
    rfl
    (by intro u e he; rw [hadjz u] at he; cases he)
    (by intro u; rw [hadjz u]; exact List.nodup_nil)
    (by intro p hp; cases hp)
    List.nodup_nil
    rfl
    (by
      intro a b
      constructor
      · intro hcontra
        rw [hasArc_iff_mem, hadjz a] at hcontra
        cases hcontra
      · intro hmem
        rcases Bool.eq_false_or_eq_true directed with hd | hd <;> rw [hd] at hmem <;>
          simp at hmem)
  have hout' : make_random_graph V E stream directed fuel = .ok out := hout
  exact ⟨fuel, out, hout',
    make_random_graph_exact_edges V E stream directed fuel out hstream hout'⟩

/-- C5 witness: two vertices, the fair stream cycling through all four
vertex pairs, capacity 1, one edge requested. -/
theorem C5_random_graph_terminates_exact_witness :
    (∀ k : Nat, ((fun j : Nat => (j % 2, j / 2 % 2)) k).1 < 2
      ∧ ((fun j : Nat => (j % 2, j / 2 % 2)) k).2 < 2) ∧
    FairStream (fun j : Nat => (j % 2, j / 2 % 2)) 2 ∧
    1 ≤ (validKeys 2 false).card ∧
    (∃ (fuel : Nat) (out : Graph),
      make_random_graph 2 1 (fun j : Nat => (j % 2, j / 2 % 2)) false fuel = .ok out ∧
      out.m = 1 ∧ Graph.noSelfLoops out ∧ Graph.nodupAdj out ∧ out.n = 2) :=
  ⟨fun k => ⟨Nat.mod_lt _ (by decide), Nat.mod_lt _ (by decide)⟩,
   fun k u v hu hv => ⟨4 * k + 4 + u + 2 * v, by omega, by
     show ((4 * k + 4 + u + 2 * v) % 2, (4 * k + 4 + u + 2 * v) / 2 % 2) = (u, v)
     rw [Prod.mk.injEq]
     exact ⟨by omega, by omega⟩⟩,
   by decide,
   C5_random_graph_terminates_exact 2 1 (fun j : Nat => (j % 2, j / 2 % 2)) false
     (fun k => ⟨Nat.mod_lt _ (by decide), Nat.mod_lt _ (by decide)⟩)
     (fun k u v hu hv => ⟨4 * k + 4 + u + 2 * v, by omega, by
       show ((4 * k + 4 + u + 2 * v) % 2, (4 * k + 4 + u + 2 * v) / 2 % 2) = (u, v)
       rw [Prod.mk.injEq]
       exact ⟨by omega, by omega⟩⟩)
     (by decide)⟩

/-! ## C1/C3: aggregator invariants and order independence -/

/-- The four algorithm names the dispatcher fans out (`kAlgos`). -/
def algoNames : List String := ["MST", "SCC", "MAXFLOW", "HAMILTON"]

/-- A result named `nm` for request `i` occurs in the trace `l`. -/
def resultArrived (l : List AlgoResult) (i : Nat) (nm : String) : Prop :=
  ∃ r ∈ l, r.id = i ∧ r.algoName = nm

/-- Checks that every non-`BEGIN` message in the trace is preceded by a
`BEGIN` sentinel with its id (`seen` is the already-scanned prefix); the
dispatcher guarantees this because it pushes `BEGIN` to the aggregator
before queueing the four tasks. -/
def beginBefore (seen : List AlgoResult) : List AlgoResult → Bool
  | [] => true
  | x :: rest =>
    ((x.algoName == "BEGIN")
        || seen.any (fun b => b.id == x.id && b.algoName == "BEGIN"))
      && beginBefore (seen ++ [x]) rest

/-- `List.lookup` succeeds exactly on the stored keys. -/
theorem lookup_isSome_iff (m : List (String × String)) (k : String) :
    (m.lookup k).isSome = true ↔ k ∈ m.map Prod.fst := by
  induction m with
  | nil => simp [List.lookup]
  | cons p rest ih =>
    obtain ⟨a, b⟩ := p
    by_cases hk : (k == a) = true
    · have hka : k = a := by simpa using hk
      simp [List.lookup, hk, hka]
    · have hne : ¬ k = a := by simpa using hk
      simp [List.lookup, hk, ih, hne]

/-- `List.lookup` over an append prefers the left map. -/
theorem lookup_append_str (m1 m2 : List (String × String)) (k : String) :
    (m1 ++ m2).lookup k =
      match m1.lookup k with
      | some v => some v
      | none => m2.lookup k := by
  induction m1 with
  | nil => simp [List.lookup]
  | cons p rest ih =>
    obtain ⟨a, b⟩ := p
    by_cases hk : (k == a) = true
    · simp [List.lookup, hk]
    · simp [List.lookup, hk, ih]

/-- Writing a fresh key appends it. -/
theorem mapSet_append_of_none {got : List (String × String)} {nm : String}
    (h : got.lookup nm = none) (txt : String) :
    mapSet got nm txt = got ++ [(nm, txt)] := by
  unfold mapSet
  rw [h]
  rfl

/-- `mapSet` keeps the stored keys distinct and preserves any per-key
property that the new key also satisfies. -/
theorem mapSet_inv (P : String → Prop) (got : List (String × String)) (nm txt : String)
    (hnd : (got.map Prod.fst).Nodup) (hP : ∀ kv ∈ got, P kv.1) (hnm : P nm) :
    ((mapSet got nm txt).map Prod.fst).Nodup ∧ ∀ kv ∈ mapSet got nm txt, P kv.1 := by
  unfold mapSet
  by_cases hp : (got.lookup nm).isSome = true
  · rw [if_pos hp]
    have hkeys : (got.map (fun p => if p.1 == nm then (p.1, txt) else p)).map Prod.fst
        = got.map Prod.fst := by
      rw [List.map_map]
      apply List.map_congr_left
      intro p _
      by_cases hb : p.1 = nm <;> simp [hb]
    constructor
    · rw [hkeys]; exact hnd
    · intro kv hkv
      rcases List.mem_map.mp hkv with ⟨p, hpm, rfl⟩
      by_cases hb : (p.1 == nm) = true
      · rw [if_pos hb]; exact hP p hpm
      · rw [if_neg hb]; exact hP p hpm
  · rw [if_neg hp]
    constructor
    · rw [List.map_append]
      apply List.Nodup.append hnd (by simp)
      intro x hx1 hx2
      simp at hx2
      rw [hx2] at hx1
      exact hp ((lookup_isSome_iff got nm).mpr hx1)
    · intro kv hkv
      rcases List.mem_append.mp hkv with h1 | h1
      · exact hP kv h1
      · simp at h1
        rw [h1]
        exact hnm

/-- Pointwise description of the map after one aggregator step. -/
theorem aggStep_fst_at (m : AggMap) (r : AlgoResult) (i : Nat) :
    ((aggStep m r).1) i =
      if i = r.id then
        (if (r.algoName == "BEGIN") = true then
          some { client_fd := r.client_fd, label := r.label, got := ((m r.id).getD {}).got }
         else if ((mapSet ((m r.id).getD {}).got r.algoName r.text).length == 4) = true then
          none
         else some { client_fd := r.client_fd, label := r.label,
                     got := mapSet ((m r.id).getD {}).got r.algoName r.text })
      else m i := by
  unfold aggStep aggUpdate
  by_cases hb : (r.algoName == "BEGIN") = true <;>
  by_cases hlen : ((mapSet ((m r.id).getD {}).got r.algoName r.text).length == 4) = true <;>
  by_cases hij : i = r.id <;>
  simp [hb, hlen, hij]

/-- The response emitted (or not) by one aggregator step. -/
theorem aggStep_snd (m : AggMap) (r : AlgoResult) :
    (aggStep m r).2 =
      if (r.algoName == "BEGIN") = true then none
      else if ((mapSet ((m r.id).getD {}).got r.algoName r.text).length == 4) = true then
        some ⟨r.client_fd,
          "Graph: " ++ r.label ++ "\n"
            ++ "MST: " ++ mapGet (mapSet ((m r.id).getD {}).got r.algoName r.text) "MST" ++ "\n"
            ++ "SCC: " ++ mapGet (mapSet ((m r.id).getD {}).got r.algoName r.text) "SCC" ++ "\n"
            ++ "MAXFLOW: " ++ mapGet (mapSet ((m r.id).getD {}).got r.algoName r.text) "MAXFLOW" ++ "\n"
            ++ "HAMILTON: " ++ mapGet (mapSet ((m r.id).getD {}).got r.algoName r.text) "HAMILTON" ++ "\n",
          0⟩
      else none := by
  unfold aggStep
  by_cases hb : (r.algoName == "BEGIN") = true <;>
  by_cases hlen : ((mapSet ((m r.id).getD {}).got r.algoName r.text).length == 4) = true <;>
  simp [hb, hlen]

/-- Running the aggregator over an append: the final map threads through. -/
theorem runAgg_fst_append (m : AggMap) (l1 l2 : List AlgoResult) :
    (runAgg m (l1 ++ l2)).1 = (runAgg (runAgg m l1).1 l2).1 := by
  induction l1 generalizing m with
  | nil => rfl
  | cons x xs ih =>
    simp only [List.cons_append, runAgg]
    exact ih ((aggStep m x).1)

/-- Arrival is monotone in the trace. -/
theorem resultArrived_mono {l : List AlgoResult} (r : AlgoResult) {i : Nat} {nm : String}
    (h : resultArrived l i nm) : resultArrived (l ++ [r]) i nm := by
  rcases h with ⟨x, hx, h1, h2⟩
  exact ⟨x, List.mem_append.mpr (Or.inl hx), h1, h2⟩

/-- Invariant of the aggregator run from the empty map: for every request
id, the recorded result names are distinct, none is the `BEGIN` sentinel,
and each was carried by some message of the trace for that id. -/
theorem runAgg_got_inv (l : List AlgoResult) (i : Nat) :
    ((((runAgg emptyAggMap l).1 i).getD {}).got.map Prod.fst).Nodup ∧
    ∀ kv ∈ (((runAgg emptyAggMap l).1 i).getD {}).got,
      kv.1 ≠ "BEGIN" ∧ resultArrived l i kv.1 := by
  induction l using List.reverseRecOn with
  | nil =>
    constructor
    · simp [runAgg, emptyAggMap]
    · intro kv hkv
      simp [runAgg, emptyAggMap] at hkv
  | append_singleton xs r ih =>
    rw [runAgg_fst_append]
    have hstep : (runAgg (runAgg emptyAggMap xs).1 [r]).1
        = (aggStep (runAgg emptyAggMap xs).1 r).1 := rfl
    rw [hstep, aggStep_fst_at]
    by_cases hij : i = r.id
    · subst hij
      rw [if_pos rfl]
      by_cases hb : (r.algoName == "BEGIN") = true
      · rw [if_pos hb, Option.getD_some]
        have hred : ({ client_fd := r.client_fd, label := r.label,
                       got := (((runAgg emptyAggMap xs).1 r.id).getD {}).got } : AggState).got
            = (((runAgg emptyAggMap xs).1 r.id).getD {}).got := rfl
        rw [hred]
        exact ⟨ih.1, fun kv hkv =>
          ⟨(ih.2 kv hkv).1, resultArrived_mono r (ih.2 kv hkv).2⟩⟩
      · rw [if_neg hb]
        have hb' : (r.algoName == "BEGIN") = false := by simpa using hb
        by_cases hlen :
            ((mapSet (((runAgg emptyAggMap xs).1 r.id).getD {}).got r.algoName r.text).length == 4)
              = true
        · rw [if_pos hlen]
          constructor
          · simp
          · intro kv hkv
            simp at hkv
        · rw [if_neg hlen, Option.getD_some]
          have hred2 : ({ client_fd := r.client_fd, label := r.label,
                          got := mapSet (((runAgg emptyAggMap xs).1 r.id).getD {}).got r.algoName r.text }
                : AggState).got
              = mapSet (((runAgg emptyAggMap xs).1 r.id).getD {}).got r.algoName r.text := rfl
          rw [hred2]
          exact mapSet_inv (fun k => k ≠ "BEGIN" ∧ resultArrived (xs ++ [r]) r.id k)
            (((runAgg emptyAggMap xs).1 r.id).getD {}).got r.algoName r.text
            ih.1
            (fun kv hkv => ⟨(ih.2 kv hkv).1, resultArrived_mono r (ih.2 kv hkv).2⟩)
            ⟨beq_eq_false_iff_ne.mp hb', ⟨r, List.mem_append.mpr (Or.inr (by simp)), rfl, rfl⟩⟩
    · rw [if_neg hij]
      exact ⟨ih.1, fun kv hkv =>
        ⟨(ih.2 kv hkv).1, resultArrived_mono r (ih.2 kv hkv).2⟩⟩

/-- One aggregator step emits a Response exactly when it erases the state
for that request id. -/
theorem aggStep_discard_iff (m : AggMap) (r : AlgoResult) :
    (aggStep m r).2.isSome = true ↔ (aggStep m r).1 r.id = none := by
  rw [aggStep_snd, aggStep_fst_at]
  by_cases hb : (r.algoName == "BEGIN") = true <;>
  by_cases hlen : ((mapSet ((m r.id).getD {}).got r.algoName r.text).length == 4) = true <;>
  simp [hb, hlen]

/-- Four distinct strings drawn from `algoNames` are all of `algoNames`. -/
theorem keys_all_names {keys : List String} (hsub : ∀ k ∈ keys, k ∈ algoNames)
    (hnd : keys.Nodup) (hlen : keys.length = 4) : ∀ a ∈ algoNames, a ∈ keys := by
  have h1 : keys.toFinset ⊆ algoNames.toFinset := fun k hk =>
    List.mem_toFinset.mpr (hsub k (List.mem_toFinset.mp hk))
  have h2 : keys.toFinset.card = 4 := by
    rw [List.toFinset_card_of_nodup hnd, hlen]
  have h3 : algoNames.toFinset.card = 4 := by decide
  have h4 : keys.toFinset = algoNames.toFinset :=
    Finset.eq_of_subset_of_card_le h1 (h3.trans h2.symm).le
  intro a ha
  have : a ∈ keys.toFinset := by rw [h4]; exact List.mem_toFinset.mpr ha
  exact List.mem_toFinset.mp this

/-- If `beginBefore` holds and a non-`BEGIN` message sits after prefix `p`,
some earlier message (in `seen ++ p`) was its `BEGIN` sentinel. -/
theorem beginBefore_split (x : AlgoResult) (s : List AlgoResult)
    (hx : (x.algoName == "BEGIN") = false) :
    ∀ (p seen : List AlgoResult), beginBefore seen (p ++ x :: s) = true →
      ∃ b ∈ seen ++ p, b.id = x.id ∧ b.algoName = "BEGIN" := by
  intro p
  induction p with
  | nil =>
    intro seen h
    rw [List.nil_append] at h
    simp only [beginBefore] at h
    rw [Bool.and_eq_true] at h
    rcases h with ⟨h1, _⟩
    rw [hx, Bool.false_or] at h1
    rcases List.any_eq_true.mp h1 with ⟨b, hb, hbp⟩
    rw [Bool.and_eq_true] at hbp
    rcases hbp with ⟨hb1, hb2⟩
    exact ⟨b, by simpa using hb, by simpa using hb1, by simpa using hb2⟩
  | cons y p' ih =>
    intro seen h
    rw [List.cons_append] at h
    simp only [beginBefore] at h
    rw [Bool.and_eq_true] at h
    rcases h with ⟨_, h2⟩
    rcases ih (seen ++ [y]) h2 with ⟨b, hb, hprops⟩
    refine ⟨b, ?_, hprops⟩
    rw [List.append_assoc, List.singleton_append] at hb
    exact hb

/-- **C1.** Running the aggregator over any trace `pre ++ r :: post` whose
messages carry only `BEGIN` or one of the four algorithm names and in which
every named result is preceded by a `BEGIN` sentinel for its id (as the
dispatcher guarantees), the step that processes `r` emits a Response only
if all four named results for `r`'s id (MST, SCC, MAXFLOW, HAMILTON) have
already arrived — never with partial results — and only after a `BEGIN`
sentinel for that id; moreover the step emits a Response exactly when it
discards the aggregation state for that id. -/
theorem C1_response_only_after_begin_and_four_results
    (pre post : List AlgoResult) (r : AlgoResult)
    (hnames : ∀ x ∈ pre ++ r :: post, x.algoName = "BEGIN" ∨ x.algoName ∈ algoNames)
    (hbegin : beginBefore [] (pre ++ r :: post) = true) :
    (((aggStep (runAgg emptyAggMap pre).1 r).2.isSome = true →
       (∀ a ∈ algoNames, resultArrived (pre ++ [r]) r.id a) ∧
       ∃ b ∈ pre, b.id = r.id ∧ b.algoName = "BEGIN") ∧
     ((aggStep (runAgg emptyAggMap pre).1 r).2.isSome = true ↔
       (aggStep (runAgg emptyAggMap pre).1 r).1 r.id = none)) := by
  constructor
  · intro hemit
    by_cases hb : (r.algoName == "BEGIN") = true
    · rw [aggStep_snd, if_pos hb] at hemit
      simp at hemit
    · have hb' : (r.algoName == "BEGIN") = false := by simpa using hb
      by_cases hlen : ((mapSet (((runAgg emptyAggMap pre).1 r.id).getD {}).got
          r.algoName r.text).length == 4) = true
      swap
      · rw [aggStep_snd, if_neg hb, if_neg hlen] at hemit
        simp at hemit
      have hinv := runAgg_got_inv pre r.id
      have hgotinv := mapSet_inv (fun k => k ≠ "BEGIN" ∧ resultArrived (pre ++ [r]) r.id k)
        (((runAgg emptyAggMap pre).1 r.id).getD {}).got r.algoName r.text
        hinv.1
        (fun kv hkv => ⟨(hinv.2 kv hkv).1, resultArrived_mono r (hinv.2 kv hkv).2⟩)
        ⟨beq_eq_false_iff_ne.mp hb', ⟨r, List.mem_append.mpr (Or.inr (by simp)), rfl, rfl⟩⟩
      have hlen4 : (mapSet (((runAgg emptyAggMap pre).1 r.id).getD {}).got
          r.algoName r.text).length = 4 := by simpa using hlen
      have hsub : ∀ k ∈ (mapSet (((runAgg emptyAggMap pre).1 r.id).getD {}).got
          r.algoName r.text).map Prod.fst, k ∈ algoNames := by
        intro k hk
        rcases List.mem_map.mp hk with ⟨kv, hkv, rfl⟩
        rcases hgotinv.2 kv hkv with ⟨hkb, hkarr⟩
        rcases hkarr with ⟨x, hxmem, hxid, hxnm⟩
        have hxl : x ∈ pre ++ r :: post := by
          rcases List.mem_append.mp hxmem with h | h
          · exact List.mem_append.mpr (Or.inl h)
          · simp at h
            rw [h]
            exact List.mem_append.mpr (Or.inr (List.mem_cons_self _ _))
        rcases hnames x hxl with h | h
        · exact absurd (hxnm ▸ h) hkb
        · rw [← hxnm]
          exact h
      have hall := keys_all_names hsub hgotinv.1
        (by rw [List.length_map]; exact hlen4)
      have hfour : ∀ a ∈ algoNames, resultArrived (pre ++ [r]) r.id a := by
        intro a ha
        rcases List.mem_map.mp (hall a ha) with ⟨kv, hkv, hkeq⟩
        rcases hgotinv.2 kv hkv with ⟨_, harr⟩
        rw [← hkeq]
        exact harr
      refine ⟨hfour, ?_⟩
      rcases hfour "MST" (by decide) with ⟨x, hxmem, hxid, hxnm⟩
      have hxbeq : (x.algoName == "BEGIN") = false := by
        rw [hxnm]
        rfl
      rcases List.append_of_mem hxmem with ⟨p1, s1, heq⟩
      have htr : pre ++ r :: post = p1 ++ x :: (s1 ++ post) := by
        rw [List.append_cons pre r post, heq, List.append_assoc, List.cons_append]
      rw [htr] at hbegin
      rcases beginBefore_split x (s1 ++ post) hxbeq p1 [] hbegin with ⟨b, hbmem, hbid, hbnm⟩
      rw [List.nil_append] at hbmem
      have hbpre : b ∈ pre ++ [r] := by
        rw [heq]
        exact List.mem_append.mpr (Or.inl hbmem)
      rcases List.mem_append.mp hbpre with h | h
      · exact ⟨b, h, by rw [hbid, hxid], hbnm⟩
      · exfalso
        simp at h
        rw [h] at hbnm
        rw [hbnm] at hb'
        simp at hb'
  · exact aggStep_discard_iff _ r

/-- Witness for C1 on a concrete five-message trace. -/
theorem C1_response_only_after_begin_and_four_results_witness :
    (∀ x ∈ ([⟨5, "BEGIN", "", "G", 7⟩, ⟨5, "MST", "w", "G", 7⟩,
        ⟨5, "SCC", "x", "G", 7⟩, ⟨5, "MAXFLOW", "y", "G", 7⟩] ++
        (⟨5, "HAMILTON", "z", "G", 7⟩ : AlgoResult) :: []),
      x.algoName = "BEGIN" ∨ x.algoName ∈ algoNames) ∧
    beginBefore [] ([⟨5, "BEGIN", "", "G", 7⟩, ⟨5, "MST", "w", "G", 7⟩,
        ⟨5, "SCC", "x", "G", 7⟩, ⟨5, "MAXFLOW", "y", "G", 7⟩] ++
        (⟨5, "HAMILTON", "z", "G", 7⟩ : AlgoResult) :: []) = true ∧
    (((aggStep (runAgg emptyAggMap [⟨5, "BEGIN", "", "G", 7⟩, ⟨5, "MST", "w", "G", 7⟩,
          ⟨5, "SCC", "x", "G", 7⟩, ⟨5, "MAXFLOW", "y", "G", 7⟩]).1
        (⟨5, "HAMILTON", "z", "G", 7⟩ : AlgoResult)).2.isSome = true →
       (∀ a ∈ algoNames, resultArrived ([⟨5, "BEGIN", "", "G", 7⟩, ⟨5, "MST", "w", "G", 7⟩,
          ⟨5, "SCC", "x", "G", 7⟩, ⟨5, "MAXFLOW", "y", "G", 7⟩] ++
          [⟨5, "HAMILTON", "z", "G", 7⟩])
         (⟨5, "HAMILTON", "z", "G", 7⟩ : AlgoResult).id a) ∧
       ∃ b ∈ [(⟨5, "BEGIN", "", "G", 7⟩ : AlgoResult), ⟨5, "MST", "w", "G", 7⟩,
          ⟨5, "SCC", "x", "G", 7⟩, ⟨5, "MAXFLOW", "y", "G", 7⟩],
         b.id = (⟨5, "HAMILTON", "z", "G", 7⟩ : AlgoResult).id ∧ b.algoName = "BEGIN") ∧
     ((aggStep (runAgg emptyAggMap [⟨5, "BEGIN", "", "G", 7⟩, ⟨5, "MST", "w", "G", 7⟩,
          ⟨5, "SCC", "x", "G", 7⟩, ⟨5, "MAXFLOW", "y", "G", 7⟩]).1
        (⟨5, "HAMILTON", "z", "G", 7⟩ : AlgoResult)).2.isSome = true ↔
      (aggStep (runAgg emptyAggMap [⟨5, "BEGIN", "", "G", 7⟩, ⟨5, "MST", "w", "G", 7⟩,
          ⟨5, "SCC", "x", "G", 7⟩, ⟨5, "MAXFLOW", "y", "G", 7⟩]).1
        (⟨5, "HAMILTON", "z", "G", 7⟩ : AlgoResult)).1
        (⟨5, "HAMILTON", "z", "G", 7⟩ : AlgoResult).id = none)) :=
  ⟨by decide, by decide,
   C1_response_only_after_begin_and_four_results
     [⟨5, "BEGIN", "", "G", 7⟩, ⟨5, "MST", "w", "G", 7⟩,
      ⟨5, "SCC", "x", "G", 7⟩, ⟨5, "MAXFLOW", "y", "G", 7⟩] []
     ⟨5, "HAMILTON", "z", "G", 7⟩ (by decide) (by decide)⟩

/-- Distinct strings drawn from `algoNames` number at most four. -/
theorem nodup_sub_algoNames_len {rem : List String} (hnd : rem.Nodup)
    (hsub : rem ⊆ algoNames) : rem.length ≤ 4 := by
  have h1 : rem.toFinset ⊆ algoNames.toFinset := fun k hk =>
    List.mem_toFinset.mpr (hsub (List.mem_toFinset.mp hk))
  have h2 := Finset.card_le_card h1
  rw [List.toFinset_card_of_nodup hnd] at h2
  have h3 : algoNames.toFinset.card = 4 := by decide
  rw [h3] at h2
  exact h2

/-- Core order-independence lemma: from a state already holding the other
`4 - rem.length` results of request `i`, processing — in any order — the
`BEGIN` sentinel (if still pending) and one named result for each name in
`rem` emits exactly the assembled Response, whose lines follow the fixed
MST, SCC, MAXFLOW, HAMILTON order regardless of arrival order. -/
theorem runAgg_perm_core (fd : Int) (i : Nat) (label : String) (T : String → String) :
    ∀ (l : List AlgoResult) (rem : List String) (hasB : Bool) (m : AggMap),
      rem.Nodup → rem ⊆ algoNames → rem ≠ [] →
      l.Perm ((if hasB then [⟨fd, "BEGIN", "", label, i⟩] else [])
        ++ rem.map (fun nm => (⟨fd, nm, T nm, label, i⟩ : AlgoResult))) →
      (∀ nm ∈ algoNames, (((m i).getD {}).got.lookup nm)
          = if nm ∈ rem then none else some (T nm)) →
      ((m i).getD {}).got.length = 4 - rem.length →
      (runAgg m l).2 = [⟨fd, "Graph: " ++ label ++ "\n"
        ++ "MST: " ++ T "MST" ++ "\n" ++ "SCC: " ++ T "SCC" ++ "\n"
        ++ "MAXFLOW: " ++ T "MAXFLOW" ++ "\n" ++ "HAMILTON: " ++ T "HAMILTON" ++ "\n", 0⟩] := by
  intro l
  induction l with
  | nil =>
    intro rem hasB m hnd hsub hne hperm hlook hlen
    exfalso
    have hnil := hperm.symm.eq_nil
    rcases List.append_eq_nil.mp hnil with ⟨_, h2⟩
    exact hne (List.map_eq_nil.mp h2)
  | cons x l' ih =>
    intro rem hasB m hnd hsub hne hperm hlook hlen
    have hlen4 : rem.length ≤ 4 := nodup_sub_algoNames_len hnd hsub
    have hxmem := hperm.subset (List.mem_cons_self x l')
    rcases List.mem_append.mp hxmem with hxb | hxr
    · -- x is the BEGIN sentinel
      cases hasB with
      | false => simp at hxb
      | true =>
        simp at hxb
        subst hxb
        simp only [runAgg]
        rw [aggStep_snd, if_pos (by rfl)]
        rw [Option.toList_none, List.nil_append]
        have hm' : ((((aggStep m (⟨fd, "BEGIN", "", label, i⟩ : AlgoResult)).1 i).getD {}).got)
            = ((m i).getD {}).got := by
          rw [aggStep_fst_at, if_pos rfl, if_pos (by rfl)]
          rfl
        refine ih rem false (aggStep m _).1 hnd hsub hne ?_ ?_ ?_
        · have := hperm.cons_inv
          simpa using this
        · intro nm hnm
          rw [hm']
          exact hlook nm hnm
        · rw [hm']
          exact hlen
    · -- x is a named result
      rcases List.mem_map.mp hxr with ⟨nm, hnmrem, hxeq⟩
      subst hxeq
      have hnmalgo : nm ∈ algoNames := hsub hnmrem
      have hnmne : (nm == "BEGIN") = false := by
        have hcases : nm = "MST" ∨ nm = "SCC" ∨ nm = "MAXFLOW" ∨ nm = "HAMILTON" := by
          simpa [algoNames] using hnmalgo
        rcases hcases with rfl | rfl | rfl | rfl <;> rfl
      have hlooknm : (((m i).getD {}).got.lookup nm) = none := by
        rw [hlook nm hnmalgo, if_pos hnmrem]
      have hmapset : mapSet ((m i).getD {}).got nm (T nm) = ((m i).getD {}).got ++ [(nm, T nm)] :=
        mapSet_append_of_none hlooknm _
      have hgotlen : (mapSet ((m i).getD {}).got nm (T nm)).length = 4 - rem.length + 1 := by
        rw [hmapset, List.length_append, hlen]
        rfl
      have hrem1 : 1 ≤ rem.length := List.length_pos.mpr hne
      simp only [runAgg]
      rw [aggStep_snd, if_neg (by simp [hnmne])]
      by_cases hr1 : rem.length = 1
      · -- this is the last pending result: emission
        have hremeq : rem = [nm] := by
          cases rem with
          | nil => cases hne rfl
          | cons a rest =>
            cases rest with
            | nil =>
              have : nm = a := by simpa using hnmrem
              rw [this]
            | cons b r2 => simp at hr1
        subst hremeq
        have hlen4' : ((mapSet ((m i).getD {}).got nm (T nm)).length == 4) = true := by
          rw [hgotlen, hr1]
          decide
        rw [if_pos (by simpa using hlen4')]
        have hget : ∀ a ∈ algoNames, mapGet (((m i).getD {}).got ++ [(nm, T nm)]) a = T a := by
          intro a ha
          unfold mapGet
          rw [lookup_append_str]
          by_cases hanm : a = nm
          · subst hanm
            rw [hlook a ha, if_pos (by simp)]
            simp [List.lookup]
          · rw [hlook a ha, if_neg (by simp [hanm])]
            rfl
        have hfinal : (runAgg (aggStep m (⟨fd, nm, T nm, label, i⟩ : AlgoResult)).1 l').2 = [] := by
          cases hasB with
          | false =>
            have hl' : l' = [] := by
              have := hperm.cons_inv
              simpa using this.eq_nil
            rw [hl']
            rfl
          | true =>
            have hswap : ([(⟨fd, "BEGIN", "", label, i⟩ : AlgoResult),
                ⟨fd, nm, T nm, label, i⟩] : List AlgoResult).Perm
                [⟨fd, nm, T nm, label, i⟩, ⟨fd, "BEGIN", "", label, i⟩] :=
              List.Perm.swap _ _ []
            have hperm2 := (hperm.trans (by simpa using hswap)).cons_inv
            have hl' : l' = [⟨fd, "BEGIN", "", label, i⟩] := List.perm_singleton.mp hperm2
            rw [hl']
            simp only [runAgg]
            rw [aggStep_snd, if_pos (by rfl)]
            rfl
        rw [hfinal]
        simp only [Option.toList_some, List.append_nil]
        rw [show (mapSet ((m i).getD {}).got
            (⟨fd, nm, T nm, label, i⟩ : AlgoResult).algoName
            (⟨fd, nm, T nm, label, i⟩ : AlgoResult).text)
            = ((m i).getD {}).got ++ [(nm, T nm)] from hmapset]
        rw [hget "MST" (by decide), hget "SCC" (by decide),
          hget "MAXFLOW" (by decide), hget "HAMILTON" (by decide)]
      · -- at least two results still pending: record, no emission
        have hr2 : 2 ≤ rem.length := by omega
        have hlenne : ((mapSet ((m i).getD {}).got nm (T nm)).length == 4) = false := by
          rw [hgotlen]
          have hne4 : 4 - rem.length + 1 ≠ 4 := by omega
          rw [beq_eq_false_iff_ne]
          exact hne4
        rw [if_neg (by simp [hlenne])]
        rw [Option.toList_none, List.nil_append]
        have hm2 : (((aggStep m (⟨fd, nm, T nm, label, i⟩ : AlgoResult)).1 i).getD {}).got
            = ((m i).getD {}).got ++ [(nm, T nm)] := by
          rw [aggStep_fst_at, if_pos rfl, if_neg (by simp [hnmne]),
            if_neg (by simp [hlenne])]
          exact hmapset
        have hfinj : Function.Injective
            (fun nm => (⟨fd, nm, T nm, label, i⟩ : AlgoResult)) := by
          intro a b h
          simpa using congrArg AlgoResult.algoName h
        refine ih (rem.erase nm) hasB (aggStep m _).1 (hnd.erase _) ?_ ?_ ?_ ?_ ?_
        · intro b hb
          exact hsub (List.erase_subset _ _ hb)
        · intro hcon
          have hle := List.length_erase_of_mem hnmrem
          rw [hcon] at hle
          simp at hle
          omega
        · have h1 := (List.cons_perm_iff_perm_erase.mp hperm).2
          have hnotb : (⟨fd, nm, T nm, label, i⟩ : AlgoResult)
              ∉ (if hasB then [(⟨fd, "BEGIN", "", label, i⟩ : AlgoResult)] else []) := by
            cases hasB with
            | false => simp
            | true =>
              simp only [if_pos]
              intro hcon
              simp at hcon
              rw [hcon.1] at hnmne
              simp at hnmne
          rw [List.erase_append_right _ hnotb] at h1
          rw [← List.map_erase hfinj] at h1
          exact h1
        · intro a ha
          rw [hm2, lookup_append_str, hlook a ha]
          by_cases hanm : a = nm
          · subst hanm
            rw [if_pos hnmrem]
            have hnotmem : a ∉ rem.erase a := fun hcon =>
              ((hnd.mem_erase_iff).mp hcon).1 rfl
            rw [if_neg hnotmem]
            simp [List.lookup]
          · by_cases hmem : a ∈ rem
            · rw [if_pos hmem, if_pos ((hnd.mem_erase_iff).mpr ⟨hanm, hmem⟩)]
              have hbeq : (a == nm) = false := by simpa using hanm
              simp [List.lookup, hbeq]
            · rw [if_neg hmem, if_neg (fun hcon => hmem (List.erase_subset _ _ hcon))]
        · rw [hm2, List.length_append, hlen, List.length_erase_of_mem hnmrem]
          simp
          omega

/-- **C3.** For one request, the aggregator assembles an identical Response
— label line, then MST, SCC, MAXFLOW, HAMILTON lines in that fixed order —
from any arrival order of the BEGIN sentinel and the four named results
(all `5! / 1` interleavings, covering the 4! result orders with BEGIN
anywhere among them). -/
theorem C3_aggregation_order_independent
    (fd : Int) (i : Nat) (label tmst tscc tmax tham : String)
    (l : List AlgoResult)
    (hperm : l.Perm [⟨fd, "BEGIN", "", label, i⟩,
      ⟨fd, "MST", tmst, label, i⟩, ⟨fd, "SCC", tscc, label, i⟩,
      ⟨fd, "MAXFLOW", tmax, label, i⟩, ⟨fd, "HAMILTON", tham, label, i⟩]) :
    (runAgg emptyAggMap l).2 = [⟨fd,
      "Graph: " ++ label ++ "\n" ++ "MST: " ++ tmst ++ "\n" ++ "SCC: " ++ tscc ++ "\n"
        ++ "MAXFLOW: " ++ tmax ++ "\n" ++ "HAMILTON: " ++ tham ++ "\n", 0⟩] := by
  exact runAgg_perm_core fd i label
    (fun nm => if nm = "MST" then tmst else if nm = "SCC" then tscc
      else if nm = "MAXFLOW" then tmax else tham)
    l algoNames true emptyAggMap (by decide) (fun _ ha => ha) (by decide)
    hperm (fun nm hmem => by simp [emptyAggMap, List.lookup, hmem]) rfl

/-- Witness for C3: a shuffled arrival order (MST first, BEGIN second,
then HAMILTON, SCC, MAXFLOW) assembles the Response in the fixed order. -/
theorem C3_aggregation_order_independent_witness :
    ([(⟨3, "MST", "a", "L", 9⟩ : AlgoResult), ⟨3, "BEGIN", "", "L", 9⟩,
      ⟨3, "HAMILTON", "d", "L", 9⟩, ⟨3, "SCC", "b", "L", 9⟩,
      ⟨3, "MAXFLOW", "c", "L", 9⟩].Perm [⟨3, "BEGIN", "", "L", 9⟩,
      ⟨3, "MST", "a", "L", 9⟩, ⟨3, "SCC", "b", "L", 9⟩,
      ⟨3, "MAXFLOW", "c", "L", 9⟩, ⟨3, "HAMILTON", "d", "L", 9⟩]) ∧
    (runAgg emptyAggMap [⟨3, "MST", "a", "L", 9⟩, ⟨3, "BEGIN", "", "L", 9⟩,
      ⟨3, "HAMILTON", "d", "L", 9⟩, ⟨3, "SCC", "b", "L", 9⟩,
      ⟨3, "MAXFLOW", "c", "L", 9⟩]).2 = [⟨3,
      "Graph: " ++ "L" ++ "\n" ++ "MST: " ++ "a" ++ "\n" ++ "SCC: " ++ "b" ++ "\n"
        ++ "MAXFLOW: " ++ "c" ++ "\n" ++ "HAMILTON: " ++ "d" ++ "\n", 0⟩] :=
  ⟨by decide,
   C3_aggregation_order_independent 3 9 "L" "a" "b" "c" "d"
     [⟨3, "MST", "a", "L", 9⟩, ⟨3, "BEGIN", "", "L", 9⟩,
      ⟨3, "HAMILTON", "d", "L", 9⟩, ⟨3, "SCC", "b", "L", 9⟩,
      ⟨3, "MAXFLOW", "c", "L", 9⟩] (by decide)⟩
